import Mathlib

/-!
# van der Grinten II / III forward projection

A shallow embedding of `boost/geometry/srs/projections/proj/vandg2.hpp`
(`base_vandg2_spheroid::fwd`, a template in its calculation type `T`).

The calculation type is instantiated with the real numbers: `fabs` is the absolute
value, `sqrt` the real square root, and the literals `0.`, `0.5`, `1.`, `2.` and `1e-10`
denote the corresponding reals.  All statements below are therefore statements about the
exact-arithmetic meaning of the formulas of `fwd`; rounding is not modelled.

Two versions of the function are given.  `fwd` follows the source statement by statement.
`fwdChecked` is the same computation in which every division and every square root is
guarded, so that an undefined operation is visible as `none`.
-/

namespace vandg2

/-- Modelled from the spec: `detail::pi<T>()` is declared outside this file; it is the
constant π. -/
noncomputable def pi : ℝ := Real.pi

/-- Modelled from the spec: `detail::two_div_pi<T>()` is declared outside this file; the
specification gives it as `twoOverPi = 2/π`. -/
noncomputable def two_div_pi : ℝ := 2 / Real.pi

/-- `static const double tolerance = 1e-10;` -/
noncomputable def tolerance : ℝ := 1e-10

/-- `struct par_vandg2 { bool vdg3; };` -/
structure par_vandg2 where
  vdg3 : Bool

/-- The local `bt` of `fwd`: `bt = fabs(two_div_pi * lp_lat);` -/
noncomputable def fwd_bt (lp_lat : ℝ) : ℝ := |two_div_pi * lp_lat|

/-- The local `ct` of `fwd` after the clamp:
`if ((ct = 1. - bt * bt) < 0.) ct = 0.; else ct = sqrt(ct);` -/
noncomputable def fwd_ct (lp_lat : ℝ) : ℝ :=
  let bt := fwd_bt lp_lat
  let ct := 1 - bt * bt
  if ct < 0 then 0 else Real.sqrt ct

/-- The local `at` of `fwd` (general branch):
`at = 0.5 * fabs(pi / lp_lon - lp_lon / pi);` -/
noncomputable def fwd_at (lp_lon : ℝ) : ℝ := 0.5 * |pi / lp_lon - lp_lon / pi|

/-- The local `x1` of `fwd`, in either variant of the general branch. -/
noncomputable def fwd_x1 (m_proj_parm : par_vandg2) (lp_lon lp_lat : ℝ) : ℝ :=
  let bt := fwd_bt lp_lat
  let ct := fwd_ct lp_lat
  let at_ := fwd_at lp_lon
  if m_proj_parm.vdg3 then
    bt / (1 + ct)
  else
    (ct * Real.sqrt (1 + at_ * at_) - at_ * ct * ct) / (1 + at_ * at_ * bt * bt)

/-- `base_vandg2_spheroid::fwd`: the pair `(xy_x, xy_y)` written by the function. -/
noncomputable def fwd (m_proj_parm : par_vandg2) (lp_lon lp_lat : ℝ) : ℝ × ℝ :=
  let bt := fwd_bt lp_lat
  let ct := fwd_ct lp_lat
  if |lp_lon| < tolerance then
    (0, pi * (if lp_lat < 0 then -bt else bt) / (1 + ct))
  else
    let at_ := fwd_at lp_lon
    let x1 := fwd_x1 m_proj_parm lp_lon lp_lat
    let xy : ℝ × ℝ :=
      if m_proj_parm.vdg3 then
        (pi * (Real.sqrt (at_ * at_ + 1 - x1 * x1) - at_), pi * x1)
      else
        (pi * x1, pi * Real.sqrt (1 - x1 * (x1 + 2 * at_) + tolerance))
    (if lp_lon < 0 then -xy.1 else xy.1, if lp_lat < 0 then -xy.2 else xy.2)

/-- The `else` branch of `fwd` (source lines 102-114): the general-case formulas followed
by the sign restoration. -/
noncomputable def fwd_general (m_proj_parm : par_vandg2) (lp_lon lp_lat : ℝ) : ℝ × ℝ :=
  let bt := fwd_bt lp_lat
  let ct := fwd_ct lp_lat
  let at_ := 0.5 * |pi / lp_lon - lp_lon / pi|
  let xy : ℝ × ℝ :=
    if m_proj_parm.vdg3 then
      let x1 := bt / (1 + ct)
      (pi * (Real.sqrt (at_ * at_ + 1 - x1 * x1) - at_), pi * x1)
    else
      let x1 := (ct * Real.sqrt (1 + at_ * at_) - at_ * ct * ct) / (1 + at_ * at_ * bt * bt)
      (pi * x1, pi * Real.sqrt (1 - x1 * (x1 + 2 * at_) + tolerance))
  (if lp_lon < 0 then -xy.1 else xy.1, if lp_lat < 0 then -xy.2 else xy.2)

/-- Division that is undefined on a zero divisor. -/
noncomputable def checkedDiv (a b : ℝ) : Option ℝ :=
  if b = 0 then none else some (a / b)

/-- Square root that is undefined on a negative argument. -/
noncomputable def checkedSqrt (a : ℝ) : Option ℝ :=
  if a < 0 then none else some (Real.sqrt a)

/-- `base_vandg2_spheroid::fwd` with every `/` and every `sqrt` of the source guarded:
the result is `none` as soon as one divisor is zero or one radicand is negative. -/
noncomputable def fwdChecked (m_proj_parm : par_vandg2) (lp_lon lp_lat : ℝ) :
    Option (ℝ × ℝ) := do
  let bt := fwd_bt lp_lat
  let ct0 := 1 - bt * bt
  let ct ← if ct0 < 0 then some 0 else checkedSqrt ct0
  if |lp_lon| < tolerance then
    let y ← checkedDiv (pi * (if lp_lat < 0 then -bt else bt)) (1 + ct)
    some (0, y)
  else
    let q1 ← checkedDiv pi lp_lon
    let q2 ← checkedDiv lp_lon pi
    let at_ := 0.5 * |q1 - q2|
    let xy ←
      if m_proj_parm.vdg3 then do
        let x1 ← checkedDiv bt (1 + ct)
        let r ← checkedSqrt (at_ * at_ + 1 - x1 * x1)
        some (pi * (r - at_), pi * x1)
      else do
        let s ← checkedSqrt (1 + at_ * at_)
        let x1 ← checkedDiv (ct * s - at_ * ct * ct) (1 + at_ * at_ * bt * bt)
        let r ← checkedSqrt (1 - x1 * (x1 + 2 * at_) + tolerance)
        some (pi * x1, pi * r)
    some (if lp_lon < 0 then -xy.1 else xy.1, if lp_lat < 0 then -xy.2 else xy.2)

/-- Modelled from the spec: the type `Parameters` is declared outside this file.  Only its
field `es` is written by the code of this file; all its other fields are kept together in
`others`. -/
structure Parameters (α : Type) where
  es : ℝ
  others : α

/-- `setup_vandg2(Parameters&, par_vandg2& proj_parm)`: the two referenced objects after
the call.  The body is `proj_parm.vdg3 = false;`. -/
def setup_vandg2 {α : Type} (par : Parameters α) (_proj_parm : par_vandg2) :
    Parameters α × par_vandg2 :=
  (par, ⟨false⟩)

/-- `setup_vandg3(Parameters& par, par_vandg2& proj_parm)`: the two referenced objects
after the call.  The body is `proj_parm.vdg3 = true; par.es = 0.;`. -/
noncomputable def setup_vandg3 {α : Type} (par : Parameters α) (_proj_parm : par_vandg2) :
    Parameters α × par_vandg2 :=
  (⟨0, par.others⟩, ⟨true⟩)

/-- The data members of a `base_vandg2_spheroid` object: the copy `m_par` of the parameters
held by its base class and its own `m_proj_parm`. -/
structure base_vandg2_spheroid (α : Type) where
  m_par : Parameters α
  m_proj_parm : par_vandg2

/-- The member function `fwd` of a projector object: it reads `this->m_proj_parm`. -/
noncomputable def base_vandg2_spheroid.fwd {α : Type} (self : base_vandg2_spheroid α)
    (lp_lon lp_lat : ℝ) : ℝ × ℝ :=
  vandg2.fwd self.m_proj_parm lp_lon lp_lat

/-- The constructor `vandg2_spheroid(const Parameters& par)`: the base is constructed from
`par`, which leaves `m_proj_parm` with an indeterminate value `uninit`, and the body calls
`setup_vandg2(this->m_par, this->m_proj_parm)`. -/
def vandg2_spheroid {α : Type} (par : Parameters α) (uninit : par_vandg2) :
    base_vandg2_spheroid α :=
  let r := setup_vandg2 par uninit
  ⟨r.1, r.2⟩

/-- The constructor `vandg3_spheroid(const Parameters& par)`: as `vandg2_spheroid`, with
`setup_vandg3(this->m_par, this->m_proj_parm)`. -/
noncomputable def vandg3_spheroid {α : Type} (par : Parameters α) (uninit : par_vandg2) :
    base_vandg2_spheroid α :=
  let r := setup_vandg3 par uninit
  ⟨r.1, r.2⟩

/-- `vandg2_entry::create_new(par)`: a new `vandg2_spheroid` projector. -/
def vandg2_entry {α : Type} : Parameters α → par_vandg2 → base_vandg2_spheroid α :=
  vandg2_spheroid

/-- `vandg3_entry::create_new(par)`: a new `vandg3_spheroid` projector. -/
noncomputable def vandg3_entry {α : Type} :
    Parameters α → par_vandg2 → base_vandg2_spheroid α :=
  vandg3_spheroid

/-- Modelled from the spec: `detail::base_factory` is declared outside this file.  It is
kept as the sequence of registrations made by `add_to_factory`, each a name with the
constructor registered under it. -/
abbrev base_factory (α : Type) : Type :=
  List (String × (Parameters α → par_vandg2 → base_vandg2_spheroid α))

/-- Modelled from the spec: `base_factory::add_to_factory(name, entry)` is declared outside
this file; it records the registration of `entry` under `name`. -/
def add_to_factory {α : Type} (factory : base_factory α) (name : String)
    (entry : Parameters α → par_vandg2 → base_vandg2_spheroid α) : base_factory α :=
  factory ++ [(name, entry)]

/-- `vandg2_init(factory)`: registers `vandg2_entry` under the name `vandg2` and
`vandg3_entry` under the name `vandg3`. -/
noncomputable def vandg2_init {α : Type} (factory : base_factory α) : base_factory α :=
  add_to_factory (add_to_factory factory ("vandg2") vandg2_entry) ("vandg3") vandg3_entry

/-! ## Basic facts about the constants and the locals -/

theorem pi_pos : 0 < pi := Real.pi_pos

theorem tolerance_pos : 0 < tolerance := by
  unfold tolerance; norm_num

theorem fwd_bt_nonneg (lat : ℝ) : 0 ≤ fwd_bt lat := abs_nonneg _

theorem fwd_ct_nonneg (lat : ℝ) : 0 ≤ fwd_ct lat := by
  unfold fwd_ct
  simp only
  split_ifs
  · exact le_refl 0
  · exact Real.sqrt_nonneg _

theorem fwd_bt_neg (lat : ℝ) : fwd_bt (-lat) = fwd_bt lat := by
  unfold fwd_bt
  rw [mul_neg, abs_neg]

theorem fwd_ct_neg (lat : ℝ) : fwd_ct (-lat) = fwd_ct lat := by
  unfold fwd_ct
  rw [fwd_bt_neg]

theorem fwd_at_neg (lon : ℝ) : fwd_at (-lon) = fwd_at lon := by
  unfold fwd_at
  rw [div_neg, neg_div, ← abs_neg (pi / lon - lon / pi)]
  congr 2
  ring

theorem fwd_at_nonneg (lon : ℝ) : 0 ≤ fwd_at lon := by
  unfold fwd_at
  positivity

theorem fwd_x1_neg_lon (p : par_vandg2) (lon lat : ℝ) :
    fwd_x1 p (-lon) lat = fwd_x1 p lon lat := by
  unfold fwd_x1
  rw [fwd_at_neg]

theorem fwd_x1_neg_lat (p : par_vandg2) (lon lat : ℝ) :
    fwd_x1 p lon (-lat) = fwd_x1 p lon lat := by
  unfold fwd_x1
  rw [fwd_bt_neg, fwd_ct_neg]

theorem fwd_bt_zero : fwd_bt 0 = 0 := by
  simp [fwd_bt]

theorem fwd_ct_zero : fwd_ct 0 = 1 := by
  simp [fwd_ct, fwd_bt_zero]

theorem fwd_x1_equator_III (lon : ℝ) : fwd_x1 ⟨true⟩ lon 0 = 0 := by
  simp [fwd_x1, fwd_bt_zero]

theorem fwd_x1_equator_II (lon : ℝ) :
    fwd_x1 ⟨false⟩ lon 0 = Real.sqrt (1 + fwd_at lon * fwd_at lon) - fwd_at lon := by
  simp [fwd_x1, fwd_bt_zero, fwd_ct_zero]

/-- On the equator the radicand of variant II collapses to the added `tolerance`. -/
theorem radicand_equator_II (lon : ℝ) :
    1 - fwd_x1 ⟨false⟩ lon 0 * (fwd_x1 ⟨false⟩ lon 0 + 2 * fwd_at lon) + tolerance
      = tolerance := by
  rw [fwd_x1_equator_II]
  have hS : Real.sqrt (1 + fwd_at lon * fwd_at lon) * Real.sqrt (1 + fwd_at lon * fwd_at lon)
      = 1 + fwd_at lon * fwd_at lon :=
    Real.mul_self_sqrt (add_nonneg zero_le_one (mul_self_nonneg _))
  nlinarith [hS]

/-- Off the degenerate branch, variant II returns `y = π·sqrt(tolerance)` on the equator. -/
theorem fwd_equator_II_y (lon : ℝ) (h : ¬ |lon| < tolerance) :
    (fwd ⟨false⟩ lon 0).2 = pi * Real.sqrt tolerance := by
  unfold fwd
  simp only [if_neg h, lt_irrefl, if_false, Bool.false_eq_true]
  rw [radicand_equator_II]

theorem one_not_lt_tolerance : ¬ |(1 : ℝ)| < tolerance := by
  unfold tolerance; norm_num

theorem sqrt_tolerance_pos : 0 < Real.sqrt tolerance :=
  Real.sqrt_pos.mpr tolerance_pos

theorem fwd_bt_pole : fwd_bt (Real.pi / 2) = 1 := by
  unfold fwd_bt two_div_pi
  have h : 2 / Real.pi * (Real.pi / 2) = 1 := by
    field_simp
  rw [h, abs_one]

theorem fwd_ct_pole : fwd_ct (Real.pi / 2) = 0 := by
  simp [fwd_ct, fwd_bt_pole]

theorem zero_lt_tolerance_abs : |(0 : ℝ)| < tolerance := by
  rw [abs_zero]; exact tolerance_pos

theorem fwd_bt_quarter : fwd_bt (Real.pi / 4) = 1 / 2 := by
  unfold fwd_bt two_div_pi
  have h : 2 / Real.pi * (Real.pi / 4) = 1 / 2 := by
    field_simp
    ring
  rw [h]
  norm_num [abs_of_pos]

theorem fwd_ct_quarter : fwd_ct (Real.pi / 4) = Real.sqrt (3 / 4) := by
  unfold fwd_ct
  simp only [fwd_bt_quarter]
  norm_num

/-- The value of `fwd` at `lon = 0`, `lat = π/4`, in closed form. -/
theorem fwd_quarter_closed (p : par_vandg2) :
    fwd p 0 (Real.pi / 4) = (0, Real.pi * (1 / 2) / (1 + Real.sqrt (3 / 4))) := by
  have hpi := Real.pi_pos
  have h1 : ¬ (Real.pi / 4 < 0) := by linarith
  simp only [fwd, if_pos zero_lt_tolerance_abs, fwd_bt_quarter, fwd_ct_quarter, if_neg h1, pi]

/-- Numerical enclosure of `π·(1/2)/(1 + sqrt(3/4))`. -/
theorem quarter_value_bounds :
    (0.84178 : ℝ) < Real.pi * (1 / 2) / (1 + Real.sqrt (3 / 4)) ∧
    Real.pi * (1 / 2) / (1 + Real.sqrt (3 / 4)) < (0.84179 : ℝ) := by
  have hlo := Real.pi_gt_d6
  have hhi := Real.pi_lt_d6
  have hs1 : (0.866025 : ℝ) < Real.sqrt (3 / 4) := by
    rw [Real.lt_sqrt (by norm_num)]
    norm_num
  have hs2 : Real.sqrt (3 / 4) < (0.866026 : ℝ) := by
    rw [Real.sqrt_lt' (by norm_num)]
    norm_num
  have hd : (0 : ℝ) < 1 + Real.sqrt (3 / 4) := by linarith
  constructor
  · rw [lt_div_iff₀ hd]
    linarith
  · rw [div_lt_iff₀ hd]
    linarith

/-! ## The locals on the valid latitude range -/

theorem fwd_bt_le_one (lat : ℝ) (h : |lat| ≤ Real.pi / 2) : fwd_bt lat ≤ 1 := by
  unfold fwd_bt two_div_pi
  have hpi := Real.pi_pos
  rw [abs_mul, abs_of_pos (div_pos two_pos hpi)]
  calc 2 / Real.pi * |lat| ≤ 2 / Real.pi * (Real.pi / 2) :=
        mul_le_mul_of_nonneg_left h (div_pos two_pos hpi).le
    _ = 1 := by field_simp

theorem fwd_bt_lt_one (lat : ℝ) (h : |lat| < Real.pi / 2) : fwd_bt lat < 1 := by
  unfold fwd_bt two_div_pi
  have hpi := Real.pi_pos
  rw [abs_mul, abs_of_pos (div_pos two_pos hpi)]
  calc 2 / Real.pi * |lat| < 2 / Real.pi * (Real.pi / 2) :=
        mul_lt_mul_of_pos_left h (div_pos two_pos hpi)
    _ = 1 := by field_simp

theorem radicand_ct_nonneg (lat : ℝ) (h : |lat| ≤ Real.pi / 2) :
    0 ≤ 1 - fwd_bt lat * fwd_bt lat := by
  have h0 := fwd_bt_nonneg lat
  have h1 := fwd_bt_le_one lat h
  nlinarith

theorem fwd_ct_eq_sqrt (lat : ℝ) (h : |lat| ≤ Real.pi / 2) :
    fwd_ct lat = Real.sqrt (1 - fwd_bt lat * fwd_bt lat) := by
  unfold fwd_ct
  simp only [if_neg (not_lt.mpr (radicand_ct_nonneg lat h))]

theorem fwd_bt_ct_sq (lat : ℝ) (h : |lat| ≤ Real.pi / 2) :
    fwd_bt lat * fwd_bt lat + fwd_ct lat * fwd_ct lat = 1 := by
  rw [fwd_ct_eq_sqrt lat h, Real.mul_self_sqrt (radicand_ct_nonneg lat h)]
  ring

theorem fwd_ct_le_one (lat : ℝ) (h : |lat| ≤ Real.pi / 2) : fwd_ct lat ≤ 1 := by
  have h0 := fwd_ct_nonneg lat
  have h1 := fwd_bt_ct_sq lat h
  nlinarith [mul_self_nonneg (fwd_bt lat)]

theorem fwd_ct_pos (lat : ℝ) (h : |lat| < Real.pi / 2) : 0 < fwd_ct lat := by
  rw [fwd_ct_eq_sqrt lat h.le]
  apply Real.sqrt_pos.mpr
  have h0 := fwd_bt_nonneg lat
  have h1 := fwd_bt_lt_one lat h
  nlinarith

/-! ## Algebra of the general branch -/

/-- Variant II: with `b² + c² = 1` and `S² = 1 + a²`, the quotient defining `x1`
simplifies to `c / (S + a·c)`. -/
theorem x1_II_simplify (a b c S : ℝ) (ha : 0 ≤ a) (hc : 0 ≤ c) (hS0 : 0 < S)
    (hbc : b * b + c * c = 1) (hS : S * S = 1 + a * a) :
    (c * S - a * c * c) / (1 + a * a * b * b) = c / (S + a * c) := by
  have hD : (1 + a * a * b * b) ≠ 0 := by
    have : 0 ≤ a * a * b * b := by
      have := mul_nonneg (mul_self_nonneg a) (mul_self_nonneg b)
      nlinarith
    linarith
  have hW : S + a * c ≠ 0 := by
    have := mul_nonneg ha hc
    linarith
  rw [div_eq_div_iff hD hW]
  linear_combination c * hS - a * a * c * hbc

/-- Variant II: the radicand of `y` without the added tolerance, in closed form. -/
theorem radicand_II_closed (a b c S : ℝ) (ha : 0 ≤ a) (hc : 0 ≤ c) (hS0 : 0 < S)
    (hbc : b * b + c * c = 1) (hS : S * S = 1 + a * a) :
    1 - c / (S + a * c) * (c / (S + a * c) + 2 * a)
      = (1 + a * a) * (b * b) / ((S + a * c) * (S + a * c)) := by
  have hW : S + a * c ≠ 0 := by
    have := mul_nonneg ha hc
    linarith
  field_simp
  linear_combination hS - (1 + a * a) * hbc

theorem sqrt_one_add_sq_pos (a : ℝ) : 0 < Real.sqrt (1 + a * a) :=
  Real.sqrt_pos.mpr (by nlinarith [mul_self_nonneg a])

theorem sqrt_one_add_sq_mul_self (a : ℝ) :
    Real.sqrt (1 + a * a) * Real.sqrt (1 + a * a) = 1 + a * a :=
  Real.mul_self_sqrt (add_nonneg zero_le_one (mul_self_nonneg a))

/-- Variant II on the valid latitude range: `x1 = ct / (sqrt(1 + at²) + at·ct)`. -/
theorem fwd_x1_II_eq (lon lat : ℝ) (h : |lat| ≤ Real.pi / 2) :
    fwd_x1 ⟨false⟩ lon lat =
      fwd_ct lat / (Real.sqrt (1 + fwd_at lon * fwd_at lon) + fwd_at lon * fwd_ct lat) := by
  simp only [fwd_x1, Bool.false_eq_true, if_false]
  exact x1_II_simplify (fwd_at lon) (fwd_bt lat) (fwd_ct lat) _ (fwd_at_nonneg lon)
    (fwd_ct_nonneg lat) (sqrt_one_add_sq_pos _) (fwd_bt_ct_sq lat h)
    (sqrt_one_add_sq_mul_self _)

theorem denom_II_pos (lon lat : ℝ) :
    0 < Real.sqrt (1 + fwd_at lon * fwd_at lon) + fwd_at lon * fwd_ct lat := by
  have h1 := sqrt_one_add_sq_pos (fwd_at lon)
  have h2 := mul_nonneg (fwd_at_nonneg lon) (fwd_ct_nonneg lat)
  linarith

theorem fwd_x1_II_nonneg (lon lat : ℝ) (h : |lat| ≤ Real.pi / 2) :
    0 ≤ fwd_x1 ⟨false⟩ lon lat := by
  rw [fwd_x1_II_eq lon lat h]
  exact div_nonneg (fwd_ct_nonneg lat) (denom_II_pos lon lat).le

theorem fwd_x1_II_pos (lon lat : ℝ) (h : |lat| < Real.pi / 2) :
    0 < fwd_x1 ⟨false⟩ lon lat := by
  rw [fwd_x1_II_eq lon lat h.le]
  exact div_pos (fwd_ct_pos lat h) (denom_II_pos lon lat)

/-- Variant II on the valid latitude range: the radicand of `y` is non-negative even
without the added tolerance. -/
theorem radicand_II_nonneg (lon lat : ℝ) (h : |lat| ≤ Real.pi / 2) :
    0 ≤ 1 - fwd_x1 ⟨false⟩ lon lat * (fwd_x1 ⟨false⟩ lon lat + 2 * fwd_at lon) := by
  rw [fwd_x1_II_eq lon lat h,
    radicand_II_closed (fwd_at lon) (fwd_bt lat) (fwd_ct lat) _ (fwd_at_nonneg lon)
      (fwd_ct_nonneg lat) (sqrt_one_add_sq_pos _) (fwd_bt_ct_sq lat h)
      (sqrt_one_add_sq_mul_self _)]
  apply div_nonneg
  · exact mul_nonneg (add_nonneg zero_le_one (mul_self_nonneg _)) (mul_self_nonneg _)
  · exact mul_self_nonneg _

theorem fwd_x1_III_eq (lon lat : ℝ) :
    fwd_x1 ⟨true⟩ lon lat = fwd_bt lat / (1 + fwd_ct lat) := by
  simp only [fwd_x1, if_true]

theorem one_add_ct_pos (lat : ℝ) : 0 < 1 + fwd_ct lat := by
  have := fwd_ct_nonneg lat
  linarith

theorem fwd_x1_III_nonneg (lon lat : ℝ) : 0 ≤ fwd_x1 ⟨true⟩ lon lat := by
  rw [fwd_x1_III_eq]
  exact div_nonneg (fwd_bt_nonneg lat) (one_add_ct_pos lat).le

theorem fwd_x1_III_le_one (lon lat : ℝ) (h : |lat| ≤ Real.pi / 2) :
    fwd_x1 ⟨true⟩ lon lat ≤ 1 := by
  rw [fwd_x1_III_eq, div_le_one (one_add_ct_pos lat)]
  have h1 := fwd_bt_le_one lat h
  have h2 := fwd_ct_nonneg lat
  linarith

theorem fwd_x1_III_lt_one (lon lat : ℝ) (h : |lat| < Real.pi / 2) :
    fwd_x1 ⟨true⟩ lon lat < 1 := by
  rw [fwd_x1_III_eq, div_lt_one (one_add_ct_pos lat)]
  have h1 := fwd_bt_lt_one lat h
  have h2 := fwd_ct_nonneg lat
  linarith

/-- Variant III on the valid latitude range: the radicand of `x` is at least `at²`. -/
theorem radicand_III_ge (lon lat : ℝ) (h : |lat| ≤ Real.pi / 2) :
    fwd_at lon * fwd_at lon ≤
      fwd_at lon * fwd_at lon + 1 - fwd_x1 ⟨true⟩ lon lat * fwd_x1 ⟨true⟩ lon lat := by
  have h0 := fwd_x1_III_nonneg lon lat
  have h1 := fwd_x1_III_le_one lon lat h
  nlinarith

theorem radicand_III_nonneg (lon lat : ℝ) (h : |lat| ≤ Real.pi / 2) :
    0 ≤ fwd_at lon * fwd_at lon + 1 - fwd_x1 ⟨true⟩ lon lat * fwd_x1 ⟨true⟩ lon lat :=
  le_trans (mul_self_nonneg _) (radicand_III_ge lon lat h)

theorem lon_ne_zero_of_general (lon : ℝ) (h : ¬ |lon| < tolerance) : lon ≠ 0 := by
  intro h0
  apply h
  rw [h0, abs_zero]
  exact tolerance_pos

theorem neg_ite_sq (c : Prop) [Decidable c] (a : ℝ) :
    (if c then -a else a) ^ 2 = a ^ 2 := by
  split_ifs <;> ring

/-- The unsigned degenerate-branch ordinate is at most `π` on the valid latitude range. -/
theorem central_y_sq_le (lat : ℝ) (h : |lat| ≤ Real.pi / 2) :
    (pi * (if lat < 0 then -fwd_bt lat else fwd_bt lat) / (1 + fwd_ct lat)) ^ 2 ≤ pi ^ 2 := by
  have h0 := fwd_x1_III_nonneg 0 lat
  have h1 := fwd_x1_III_le_one 0 lat h
  rw [fwd_x1_III_eq] at h0 h1
  have e : pi * (if lat < 0 then -fwd_bt lat else fwd_bt lat) / (1 + fwd_ct lat)
      = if lat < 0 then -(pi * (fwd_bt lat / (1 + fwd_ct lat)))
        else pi * (fwd_bt lat / (1 + fwd_ct lat)) := by
    split_ifs <;> ring
  rw [e, neg_ite_sq, mul_pow]
  have hpi : 0 ≤ pi ^ 2 := sq_nonneg _
  have hq : (fwd_bt lat / (1 + fwd_ct lat)) ^ 2 ≤ 1 := by nlinarith
  nlinarith

/-- Variant III, general branch: the unsigned point lies in the closed disk of radius `π`. -/
theorem general_III_disk (lon lat : ℝ) (h : |lat| ≤ Real.pi / 2) :
    (pi * (Real.sqrt (fwd_at lon * fwd_at lon + 1
        - fwd_x1 ⟨true⟩ lon lat * fwd_x1 ⟨true⟩ lon lat) - fwd_at lon)) ^ 2
      + (pi * fwd_x1 ⟨true⟩ lon lat) ^ 2 ≤ pi ^ 2 := by
  have ha := fwd_at_nonneg lon
  have hr := radicand_III_nonneg lon lat h
  have hge := radicand_III_ge lon lat h
  have hRR := Real.mul_self_sqrt hr
  have hRa : fwd_at lon ≤ Real.sqrt (fwd_at lon * fwd_at lon + 1
      - fwd_x1 ⟨true⟩ lon lat * fwd_x1 ⟨true⟩ lon lat) := by
    apply Real.le_sqrt_of_sq_le
    rw [sq]
    exact hge
  have hpi : 0 ≤ pi ^ 2 := sq_nonneg _
  have key : (Real.sqrt (fwd_at lon * fwd_at lon + 1
        - fwd_x1 ⟨true⟩ lon lat * fwd_x1 ⟨true⟩ lon lat) - fwd_at lon) ^ 2
      + (fwd_x1 ⟨true⟩ lon lat) ^ 2 ≤ 1 := by
    nlinarith [mul_nonneg ha (sub_nonneg.mpr hRa)]
  calc _ = pi ^ 2 * ((Real.sqrt (fwd_at lon * fwd_at lon + 1
        - fwd_x1 ⟨true⟩ lon lat * fwd_x1 ⟨true⟩ lon lat) - fwd_at lon) ^ 2
      + (fwd_x1 ⟨true⟩ lon lat) ^ 2) := by ring
    _ ≤ pi ^ 2 * 1 := mul_le_mul_of_nonneg_left key hpi
    _ = pi ^ 2 := mul_one _

/-- Variant II, general branch: the unsigned point lies in the closed disk of radius
`π·sqrt(1 + tolerance)`. -/
theorem general_II_disk (lon lat : ℝ) (h : |lat| ≤ Real.pi / 2) :
    (pi * fwd_x1 ⟨false⟩ lon lat) ^ 2
      + (pi * Real.sqrt (1 - fwd_x1 ⟨false⟩ lon lat * (fwd_x1 ⟨false⟩ lon lat + 2 * fwd_at lon)
          + tolerance)) ^ 2 ≤ pi ^ 2 * (1 + tolerance) := by
  have ha := fwd_at_nonneg lon
  have hx := fwd_x1_II_nonneg lon lat h
  have hr := radicand_II_nonneg lon lat h
  have ht := tolerance_pos
  have hRR := Real.sq_sqrt (add_nonneg hr ht.le)
  have hpi : 0 ≤ pi ^ 2 := sq_nonneg _
  have hax := mul_nonneg ha hx
  rw [mul_pow, mul_pow, hRR, ← mul_add]
  apply mul_le_mul_of_nonneg_left _ hpi
  nlinarith

/-- Outside the degenerate branch `fwd` is its general branch. -/
theorem fwd_eq_general (p : par_vandg2) (lon lat : ℝ) (hl : ¬ |lon| < tolerance) :
    fwd p lon lat = fwd_general p lon lat := by
  obtain ⟨v⟩ := p
  cases v
  · simp only [fwd, fwd_general, fwd_x1, fwd_at, if_neg hl, Bool.false_eq_true, if_false]
  · simp only [fwd, fwd_general, fwd_x1, fwd_at, if_neg hl, if_true]

/-- Variant III, general branch, away from the poles: the unsigned abscissa is positive. -/
theorem general_III_x_pos (lon lat : ℝ) (h : |lat| < Real.pi / 2) :
    0 < pi * (Real.sqrt (fwd_at lon * fwd_at lon + 1
        - fwd_x1 ⟨true⟩ lon lat * fwd_x1 ⟨true⟩ lon lat) - fwd_at lon) := by
  have ha := fwd_at_nonneg lon
  have h0 := fwd_x1_III_nonneg lon lat
  have h1 := fwd_x1_III_lt_one lon lat h
  have hlt : fwd_at lon < Real.sqrt (fwd_at lon * fwd_at lon + 1
      - fwd_x1 ⟨true⟩ lon lat * fwd_x1 ⟨true⟩ lon lat) := by
    rw [Real.lt_sqrt ha]
    nlinarith
  exact mul_pos pi_pos (sub_pos.mpr hlt)

/-- Away from the poles the general branch never returns `x = 0`. -/
theorem fwd_general_x_ne_zero (p : par_vandg2) (lon lat : ℝ) (hl : ¬ |lon| < tolerance)
    (h : |lat| < Real.pi / 2) : (fwd p lon lat).1 ≠ 0 := by
  obtain ⟨v⟩ := p
  cases v
  · have hx := mul_pos pi_pos (fwd_x1_II_pos lon lat h)
    simp only [fwd, if_neg hl, Bool.false_eq_true, if_false]
    split_ifs <;> linarith
  · have hx := general_III_x_pos lon lat h
    simp only [fwd, if_neg hl, if_true]
    split_ifs <;> linarith

theorem tolerance_eq : tolerance = (1e-10 : ℝ) := rfl

theorem abs_tolerance_eq : |(1e-10 : ℝ)| = (1e-10 : ℝ) :=
  abs_of_pos (by norm_num)

theorem abs_tolerance_not_lt : ¬ |(1e-10 : ℝ)| < tolerance := by
  rw [abs_tolerance_eq, tolerance_eq]
  exact lt_irrefl _

theorem abs_zero_lt_half_pi : |(0 : ℝ)| < Real.pi / 2 := by
  rw [abs_zero]
  linarith [Real.pi_pos]

/-- The guards of `fwdChecked` are not vacuous: outside the valid latitude range
variant III meets a negative radicand (`lon = π`, `lat = π`). -/
theorem fwdChecked_none_outside : fwdChecked ⟨true⟩ Real.pi Real.pi = none := by
  have hpi := Real.pi_gt_three
  have hne : Real.pi ≠ 0 := by linarith
  have hbt : fwd_bt Real.pi = 2 := by
    unfold fwd_bt two_div_pi
    rw [div_mul_cancel₀ _ hne]
    norm_num
  have hl : ¬ |Real.pi| < tolerance := by
    rw [abs_of_pos (by linarith), tolerance_eq]
    norm_num
    linarith
  simp only [fwdChecked, hbt, checkedDiv, checkedSqrt, if_neg hl, pi, if_neg hne,
    Option.bind_eq_bind, Option.some_bind, if_true, div_self hne, sub_self, abs_zero,
    mul_zero]
  norm_num

/-- C1. Central meridian: whenever `|lon| < 1e-10`, in both variants `fwd` returns `x = 0`
and `y = π·s/(1+ct)` with `bt = |(2/π)·lat|`, `ct = sqrt(1 − bt²)` clamped to `0` when
`1 − bt² < 0`, and `s = −bt` if `lat < 0`, else `bt`. -/
theorem fwd_central_meridian (p : par_vandg2) (lon lat : ℝ)
    (hlon : |lon| < (1e-10 : ℝ)) :
    fwd p lon lat =
      (0, Real.pi * (if lat < 0 then -|2 / Real.pi * lat| else |2 / Real.pi * lat|) /
        (1 + (if 1 - |2 / Real.pi * lat| * |2 / Real.pi * lat| < 0 then 0
              else Real.sqrt (1 - |2 / Real.pi * lat| * |2 / Real.pi * lat|)))) := by
  have h : |lon| < tolerance := hlon
  simp only [fwd, if_pos h, fwd_bt, fwd_ct, pi, two_div_pi]

theorem fwd_central_meridian_witness :
    |(0 : ℝ)| < (1e-10 : ℝ) ∧
    fwd ⟨false⟩ 0 1 =
      (0, Real.pi * (if (1 : ℝ) < 0 then -|2 / Real.pi * 1| else |2 / Real.pi * 1|) /
        (1 + (if 1 - |2 / Real.pi * 1| * |2 / Real.pi * 1| < 0 then 0
              else Real.sqrt (1 - |2 / Real.pi * 1| * |2 / Real.pi * 1|)))) :=
  ⟨by norm_num, fwd_central_meridian ⟨false⟩ 0 1 (by norm_num)⟩

/-- C2. Longitude symmetry: for every `lon`, every `lat` (in particular every `lat` in
`[−π/2, π/2]`) and both variants, if `fwd(lon, lat) = (x, y)` then
`fwd(−lon, lat) = (−x, y)`. -/
theorem fwd_neg_lon (p : par_vandg2) (lon lat : ℝ) :
    fwd p (-lon) lat = (-(fwd p lon lat).1, (fwd p lon lat).2) := by
  unfold fwd
  simp only [abs_neg, fwd_at_neg, fwd_x1_neg_lon]
  by_cases h : |lon| < tolerance
  · simp [h]
  · have hne : lon ≠ 0 := by
      intro h0
      apply h
      rw [h0, abs_zero]
      exact tolerance_pos
    simp only [if_neg h]
    rcases lt_or_gt_of_ne hne with hneg | hpos
    · have h1 : ¬ (-lon < 0) := by linarith
      simp [hneg, h1]
    · have h1 : -lon < 0 := by linarith
      have h2 : ¬ (lon < 0) := by linarith
      simp [h1, h2]

/-- C3 (claim as stated fails). In variant II at `lon = 1`, `lat = 0`, which lies in the
stated domain, `fwd(lon, −lat)` is not `(x, −y)`: there `y = π·sqrt(tolerance) ≠ 0`. -/
theorem fwd_neg_lat_counterexample :
    (-Real.pi < 1 ∧ (1 : ℝ) ≤ Real.pi) ∧ (-(Real.pi / 2) ≤ 0 ∧ (0 : ℝ) ≤ Real.pi / 2) ∧
    fwd ⟨false⟩ 1 (-0) ≠ ((fwd ⟨false⟩ 1 0).1, -(fwd ⟨false⟩ 1 0).2) := by
  have hpi := Real.pi_gt_three
  refine ⟨⟨by linarith, by linarith⟩, ⟨by linarith, by linarith⟩, ?_⟩
  intro h
  have h2 := congrArg Prod.snd h
  simp only [neg_zero] at h2
  rw [fwd_equator_II_y 1 one_not_lt_tolerance] at h2
  have := mul_pos pi_pos sqrt_tolerance_pos
  linarith

/-- C3 (amended). Latitude symmetry: for every `lon`, every `lat` and both variants,
provided `lat ≠ 0`, or the variant is III, or `|lon| < tolerance`: if
`fwd(lon, lat) = (x, y)` then `fwd(lon, −lat) = (x, −y)`. -/
theorem fwd_neg_lat (p : par_vandg2) (lon lat : ℝ)
    (h : lat ≠ 0 ∨ p.vdg3 = true ∨ |lon| < tolerance) :
    fwd p lon (-lat) = ((fwd p lon lat).1, -(fwd p lon lat).2) := by
  unfold fwd
  simp only [fwd_bt_neg, fwd_ct_neg, fwd_x1_neg_lat]
  rcases lt_trichotomy lat 0 with hneg | hzero | hpos
  · have h1 : ¬ (-lat < 0) := by linarith
    by_cases hl : |lon| < tolerance
    · simp only [if_pos hl, if_pos hneg, if_neg h1]
      congr 1
      ring
    · simp [hl, hneg, h1]
  · subst hzero
    by_cases hl : |lon| < tolerance
    · simp [hl, fwd_bt_zero]
    · rcases h with h | h | h
      · exact absurd rfl h
      · obtain ⟨v⟩ := p
        simp only at h
        subst h
        simp [hl, fwd_x1_equator_III]
      · exact absurd h hl
  · have h1 : -lat < 0 := by linarith
    have h2 : ¬ (lat < 0) := by linarith
    by_cases hl : |lon| < tolerance
    · simp only [if_pos hl, if_pos h1, if_neg h2]
      congr 1
      ring
    · simp [hl, h1, h2]

theorem fwd_neg_lat_witness :
    ((1 : ℝ) ≠ 0 ∨ (⟨false⟩ : par_vandg2).vdg3 = true ∨ |(1 : ℝ)| < tolerance) ∧
    fwd ⟨false⟩ 1 (-1) = ((fwd ⟨false⟩ 1 1).1, -(fwd ⟨false⟩ 1 1).2) :=
  ⟨Or.inl one_ne_zero, fwd_neg_lat ⟨false⟩ 1 1 (Or.inl one_ne_zero)⟩

/-- C4 (claim as stated fails). At `|lon| = 1e-10` exactly and `lat = 0`, neither variant
returns the degenerate-branch abscissa `x = 0`. -/
theorem fwd_boundary_counterexample :
    |(1e-10 : ℝ)| = (1e-10 : ℝ) ∧
    (fwd ⟨true⟩ (1e-10 : ℝ) 0).1 ≠ 0 ∧ (fwd ⟨false⟩ (1e-10 : ℝ) 0).1 ≠ 0 :=
  ⟨abs_tolerance_eq,
   fwd_general_x_ne_zero ⟨true⟩ _ 0 abs_tolerance_not_lt abs_zero_lt_half_pi,
   fwd_general_x_ne_zero ⟨false⟩ _ 0 abs_tolerance_not_lt abs_zero_lt_half_pi⟩

/-- C4 (amended). Strict tolerance boundary: for every `lat` and both variants, an input
with `|lon|` exactly equal to the tolerance `1e-10` takes the general branch, i.e. `fwd`
returns the general-branch values, and for `|lat| < π/2` its `x` is not `0`. -/
theorem fwd_boundary (p : par_vandg2) (lon lat : ℝ) (h : |lon| = (1e-10 : ℝ)) :
    fwd p lon lat = fwd_general p lon lat ∧
    (|lat| < Real.pi / 2 → (fwd p lon lat).1 ≠ 0) := by
  have hl : ¬ |lon| < tolerance := by
    rw [h, tolerance_eq]
    exact lt_irrefl _
  exact ⟨fwd_eq_general p lon lat hl, fwd_general_x_ne_zero p lon lat hl⟩

theorem fwd_boundary_witness :
    |(1e-10 : ℝ)| = (1e-10 : ℝ) ∧
    (fwd ⟨false⟩ (1e-10 : ℝ) 0 = fwd_general ⟨false⟩ (1e-10 : ℝ) 0 ∧
      (|(0 : ℝ)| < Real.pi / 2 → (fwd ⟨false⟩ (1e-10 : ℝ) 0).1 ≠ 0)) :=
  ⟨abs_tolerance_eq, fwd_boundary ⟨false⟩ (1e-10 : ℝ) 0 abs_tolerance_eq⟩

/-- C5 (claim as stated fails). At `lon = 1`, `lat = 0` variant II does not return
`y = π·sqrt(1 + tolerance)`. -/
theorem fwd_equator_II_counterexample :
    (1 : ℝ) ≠ 0 ∧ (fwd ⟨false⟩ 1 0).2 ≠ Real.pi * Real.sqrt (1 + (1e-10 : ℝ)) := by
  refine ⟨one_ne_zero, ?_⟩
  rw [fwd_equator_II_y 1 one_not_lt_tolerance]
  have h : Real.sqrt tolerance < Real.sqrt (1 + (1e-10 : ℝ)) := by
    apply Real.sqrt_lt_sqrt tolerance_pos.le
    unfold tolerance; norm_num
  have := mul_lt_mul_of_pos_left h pi_pos
  exact ne_of_lt this

/-- C5 (amended). Equator, variant II: for `lat = 0` and every `lon` with
`|lon| ≥ tolerance`, `fwd` with the variant flag false returns `y = π·sqrt(tolerance)`,
with `tolerance = 1e-10`. -/
theorem fwd_equator_II (lon : ℝ) (h : (1e-10 : ℝ) ≤ |lon|) :
    (fwd ⟨false⟩ lon 0).2 = Real.pi * Real.sqrt (1e-10 : ℝ) :=
  fwd_equator_II_y lon (not_lt.mpr h)

theorem fwd_equator_II_witness :
    (1e-10 : ℝ) ≤ |(1 : ℝ)| ∧ (fwd ⟨false⟩ 1 0).2 = Real.pi * Real.sqrt (1e-10 : ℝ) :=
  ⟨by norm_num, fwd_equator_II 1 (by norm_num)⟩

/-- C6. Equator, variant III: for `lat = 0` and every `lon`, `fwd` with the variant flag
true computes `bt = 0`, `ct = 1` and returns `y = 0`. -/
theorem fwd_equator_III (lon : ℝ) :
    fwd_bt 0 = 0 ∧ fwd_ct 0 = 1 ∧ (fwd ⟨true⟩ lon 0).2 = 0 := by
  refine ⟨fwd_bt_zero, fwd_ct_zero, ?_⟩
  unfold fwd
  by_cases h : |lon| < tolerance
  · simp [h, fwd_bt_zero]
  · simp [h, fwd_x1_equator_III]

/-- C9. Pole on the central meridian: for `lat = +π/2` or `lat = −π/2`, `lon = 0` and
both variants, `fwd` computes `bt = 1`, `ct = 0` and returns `x = 0` and `y = +π` or `−π`
respectively. -/
theorem fwd_pole_central (p : par_vandg2) :
    (fwd_bt (Real.pi / 2) = 1 ∧ fwd_ct (Real.pi / 2) = 0 ∧
      fwd p 0 (Real.pi / 2) = (0, Real.pi)) ∧
    (fwd_bt (-(Real.pi / 2)) = 1 ∧ fwd_ct (-(Real.pi / 2)) = 0 ∧
      fwd p 0 (-(Real.pi / 2)) = (0, -Real.pi)) := by
  have hpi := Real.pi_pos
  have h1 : ¬ (Real.pi / 2 < 0) := by linarith
  have h2 : -(Real.pi / 2) < 0 := by linarith
  refine ⟨⟨fwd_bt_pole, fwd_ct_pole, ?_⟩, ⟨?_, ?_, ?_⟩⟩
  · simp only [fwd, if_pos zero_lt_tolerance_abs]
    simp [fwd_bt_pole, fwd_ct_pole, h1, pi]
  · rw [fwd_bt_neg, fwd_bt_pole]
  · rw [fwd_ct_neg, fwd_ct_pole]
  · simp only [fwd, if_pos zero_lt_tolerance_abs]
    simp [fwd_bt_neg, fwd_ct_neg, fwd_bt_pole, fwd_ct_pole, h2, pi]

/-- C10 (claim as stated fails). `fwd(lon = 0, lat = π/4)` in variant II has a `y` that
is not within `0.00005` of `0.8270`. -/
theorem fwd_quarter_counterexample :
    ¬ (|(fwd ⟨false⟩ 0 (Real.pi / 4)).2 - (0.8270 : ℝ)| ≤ (0.00005 : ℝ)) := by
  rw [fwd_quarter_closed]
  have h := quarter_value_bounds.1
  intro habs
  have := (abs_le.mp habs).2
  simp only at this
  linarith

/-- C10 (amended). Concrete scenario, variant II: `fwd(lon = 0, lat = π/4)` with the
variant flag false returns `x = 0` and `y = π·(1/2)/(1 + sqrt(3/4))`, which equals `0.8418`
to four decimal places, i.e. `|y − 0.8418| ≤ 0.00005`. -/
theorem fwd_quarter :
    (fwd ⟨false⟩ 0 (Real.pi / 4)).1 = 0 ∧
    (fwd ⟨false⟩ 0 (Real.pi / 4)).2 = Real.pi * (1 / 2) / (1 + Real.sqrt (3 / 4)) ∧
    |(fwd ⟨false⟩ 0 (Real.pi / 4)).2 - (0.8418 : ℝ)| ≤ (0.00005 : ℝ) := by
  rw [fwd_quarter_closed]
  refine ⟨rfl, rfl, ?_⟩
  obtain ⟨h1, h2⟩ := quarter_value_bounds
  rw [abs_le]
  simp only
  constructor <;> linarith

/-- C8. Totality on the valid domain: for every real `lon`, every `lat` in `[−π/2, π/2]`
and both variants, the guarded computation never meets a zero divisor or a negative
radicand, and it returns the pair computed by `fwd`. -/
theorem fwd_total (p : par_vandg2) (lon lat : ℝ) (h : |lat| ≤ Real.pi / 2) :
    fwdChecked p lon lat = some (fwd p lon lat) := by
  obtain ⟨v⟩ := p
  have hc0 := radicand_ct_nonneg lat h
  have hc1 : (1 + fwd_ct lat) ≠ 0 := (one_add_ct_pos lat).ne.symm
  have hct := fwd_ct_eq_sqrt lat h
  by_cases hl : |lon| < tolerance
  · simp [fwdChecked, fwd, hl, checkedSqrt, checkedDiv, not_lt.mpr hc0, ← hct, hc1]
  · have hne := lon_ne_zero_of_general lon hl
    have hpi : pi ≠ 0 := pi_pos.ne.symm
    have hS : ¬ (1 + fwd_at lon * fwd_at lon < 0) :=
      not_lt.mpr (add_nonneg zero_le_one (mul_self_nonneg _))
    have hA : (0.5 : ℝ) * |pi / lon - lon / pi| = fwd_at lon := rfl
    cases v
    · have hD : 1 + fwd_at lon * fwd_at lon * fwd_bt lat * fwd_bt lat ≠ 0 := by
        have := mul_nonneg (mul_self_nonneg (fwd_at lon)) (mul_self_nonneg (fwd_bt lat))
        nlinarith
      have hx1 : (fwd_ct lat * Real.sqrt (1 + fwd_at lon * fwd_at lon)
          - fwd_at lon * fwd_ct lat * fwd_ct lat)
          / (1 + fwd_at lon * fwd_at lon * fwd_bt lat * fwd_bt lat)
          = fwd_x1 ⟨false⟩ lon lat := by
        simp only [fwd_x1, Bool.false_eq_true, if_false]
      have hR : ¬ (1 - fwd_x1 ⟨false⟩ lon lat * (fwd_x1 ⟨false⟩ lon lat + 2 * fwd_at lon)
          + tolerance < 0) := by
        have h1 := radicand_II_nonneg lon lat h
        have h2 := tolerance_pos
        linarith
      simp only [fwdChecked, checkedDiv, checkedSqrt, if_neg hl, if_neg hne, if_neg hpi,
        if_neg (not_lt.mpr hc0), ← hct, Option.bind_eq_bind, Option.some_bind,
        Bool.false_eq_true, if_false, hA, if_neg hS, if_neg hD, hx1, if_neg hR, fwd]
    · have hx1 : fwd_bt lat / (1 + fwd_ct lat) = fwd_x1 ⟨true⟩ lon lat :=
        (fwd_x1_III_eq lon lat).symm
      have hR : ¬ (fwd_at lon * fwd_at lon + 1
          - fwd_x1 ⟨true⟩ lon lat * fwd_x1 ⟨true⟩ lon lat < 0) :=
        not_lt.mpr (radicand_III_nonneg lon lat h)
      simp only [fwdChecked, checkedDiv, checkedSqrt, if_neg hl, if_neg hne, if_neg hpi,
        if_neg (not_lt.mpr hc0), ← hct, Option.bind_eq_bind, Option.some_bind,
        if_true, hA, if_neg hc1, hx1, if_neg hR, fwd]

theorem fwd_total_witness :
    |(1 : ℝ)| ≤ Real.pi / 2 ∧ fwdChecked ⟨false⟩ 1 1 = some (fwd ⟨false⟩ 1 1) := by
  have h : |(1 : ℝ)| ≤ Real.pi / 2 := by
    rw [abs_one]
    linarith [Real.pi_gt_three]
  exact ⟨h, fwd_total ⟨false⟩ 1 1 h⟩

/-- C7 (claim as stated fails). In variant II at `lon = 1`, `lat = π/2`, inside the
stated domain, the result lies outside the disk of radius `π`. -/
theorem fwd_disk_counterexample :
    |(1 : ℝ)| ≤ Real.pi ∧ |Real.pi / 2| ≤ Real.pi / 2 ∧
    ¬ ((fwd ⟨false⟩ 1 (Real.pi / 2)).1 ^ 2 + (fwd ⟨false⟩ 1 (Real.pi / 2)).2 ^ 2
        ≤ Real.pi ^ 2) := by
  have hpi := Real.pi_gt_three
  have h1 : ¬ (Real.pi / 2 < 0) := by linarith
  have h2 : ¬ ((1 : ℝ) < 0) := by norm_num
  refine ⟨?_, ?_, ?_⟩
  · rw [abs_one]; linarith
  · rw [abs_of_pos (by linarith)]
  · have hx1 : fwd_x1 ⟨false⟩ 1 (Real.pi / 2) = 0 := by
      simp [fwd_x1, fwd_ct_pole]
    simp only [fwd, if_neg one_not_lt_tolerance, Bool.false_eq_true, if_false, hx1,
      if_neg h1, if_neg h2]
    have ht := tolerance_pos
    have hs : Real.sqrt (1 - 0 * (0 + 2 * fwd_at 1) + tolerance) ^ 2 = 1 + tolerance := by
      rw [Real.sq_sqrt (by linarith)]
      ring
    have hp : 0 < pi ^ 2 := by
      have := pi_pos
      positivity
    rw [mul_pow, mul_pow, hs]
    change ¬ (pi ^ 2 * 0 ^ 2 + pi ^ 2 * (1 + tolerance) ≤ pi ^ 2)
    nlinarith

/-- C7 (amended). For every `lon` (in particular every `lon` in `[−π, π]`), every `lat` in
`[−π/2, π/2]`, the result `(x, y)` of `fwd` satisfies `x² + y² ≤ π²` in variant III and
`x² + y² ≤ π²·(1 + tolerance)` in variant II. -/
theorem fwd_disk (p : par_vandg2) (lon lat : ℝ) (hlat : |lat| ≤ Real.pi / 2) :
    (fwd p lon lat).1 ^ 2 + (fwd p lon lat).2 ^ 2
      ≤ Real.pi ^ 2 * (1 + if p.vdg3 then 0 else (1e-10 : ℝ)) := by
  obtain ⟨v⟩ := p
  have ht := tolerance_pos
  have hpi : 0 ≤ pi ^ 2 := sq_nonneg _
  change _ ≤ pi ^ 2 * (1 + if v = true then 0 else tolerance)
  have hbound : pi ^ 2 ≤ pi ^ 2 * (1 + if v = true then 0 else tolerance) := by
    split_ifs
    · simp
    · nlinarith
  by_cases hl : |lon| < tolerance
  · simp only [fwd, if_pos hl]
    have := central_y_sq_le lat hlat
    calc _ = (pi * (if lat < 0 then -fwd_bt lat else fwd_bt lat) / (1 + fwd_ct lat)) ^ 2 := by
          ring
      _ ≤ pi ^ 2 := this
      _ ≤ _ := hbound
  · cases v
    · simp only [fwd, if_neg hl, Bool.false_eq_true, if_false, neg_ite_sq]
      exact general_II_disk lon lat hlat
    · simp only [fwd, if_neg hl, if_true, neg_ite_sq]
      have := general_III_disk lon lat hlat
      simpa using this

theorem fwd_disk_witness :
    |(0 : ℝ)| ≤ Real.pi / 2 ∧
    (fwd ⟨false⟩ 1 0).1 ^ 2 + (fwd ⟨false⟩ 1 0).2 ^ 2
      ≤ Real.pi ^ 2 * (1 + if (⟨false⟩ : par_vandg2).vdg3 then 0 else (1e-10 : ℝ)) :=
  ⟨abs_zero_lt_half_pi.le, fwd_disk ⟨false⟩ 1 0 abs_zero_lt_half_pi.le⟩

/-! ## Further facts about the two branches -/

theorem half_pi_not_lt_tolerance : ¬ |Real.pi / 2| < tolerance := by
  have hpi := Real.pi_gt_three
  rw [abs_of_pos (by linarith), tolerance_eq]
  norm_num
  linarith

theorem fwd_at_half_pi : fwd_at (Real.pi / 2) = 0.75 := by
  have hne : Real.pi ≠ 0 := Real.pi_pos.ne.symm
  have h : pi / (Real.pi / 2) - Real.pi / 2 / pi = 3 / 2 := by
    unfold pi
    field_simp
    ring
  unfold fwd_at
  rw [h, abs_of_pos (by norm_num)]
  norm_num

theorem fwd_bt_gt_one (lat : ℝ) (h : Real.pi / 2 < |lat|) : 1 < fwd_bt lat := by
  unfold fwd_bt two_div_pi
  have hpi := Real.pi_pos
  rw [abs_mul, abs_of_pos (div_pos two_pos hpi)]
  calc (1 : ℝ) = 2 / Real.pi * (Real.pi / 2) := by field_simp
    _ < 2 / Real.pi * |lat| := mul_lt_mul_of_pos_left h (div_pos two_pos hpi)

theorem radicand_ct_neg (lat : ℝ) (h : Real.pi / 2 < |lat|) :
    1 - fwd_bt lat * fwd_bt lat < 0 := by
  have h1 := fwd_bt_gt_one lat h
  nlinarith

theorem fwd_ct_clamped (lat : ℝ) (h : Real.pi / 2 < |lat|) : fwd_ct lat = 0 := by
  unfold fwd_ct
  simp only [if_pos (radicand_ct_neg lat h)]

/-- Variant III, general branch, valid latitude range: `at ≤ sqrt(at² + 1 − x1²)`. -/
theorem at_le_sqrt_III (lon lat : ℝ) (h : |lat| ≤ Real.pi / 2) :
    fwd_at lon ≤ Real.sqrt (fwd_at lon * fwd_at lon + 1
      - fwd_x1 ⟨true⟩ lon lat * fwd_x1 ⟨true⟩ lon lat) := by
  apply Real.le_sqrt_of_sq_le
  rw [sq]
  exact radicand_III_ge lon lat h

/-- The unsigned abscissa of the general branch is non-negative on the valid range. -/
theorem general_x_nonneg (p : par_vandg2) (lon lat : ℝ) (h : |lat| ≤ Real.pi / 2) :
    0 ≤ (if p.vdg3 then
          (pi * (Real.sqrt (fwd_at lon * fwd_at lon + 1
            - fwd_x1 p lon lat * fwd_x1 p lon lat) - fwd_at lon), pi * fwd_x1 p lon lat)
        else
          (pi * fwd_x1 p lon lat,
            pi * Real.sqrt (1 - fwd_x1 p lon lat * (fwd_x1 p lon lat + 2 * fwd_at lon)
              + tolerance))).1 := by
  obtain ⟨v⟩ := p
  cases v
  · simp only [Bool.false_eq_true, if_false]
    exact mul_nonneg pi_pos.le (fwd_x1_II_nonneg lon lat h)
  · simp only [if_true]
    exact mul_nonneg pi_pos.le (sub_nonneg.mpr (at_le_sqrt_III lon lat h))

/-- The unsigned ordinate of the general branch is non-negative. -/
theorem general_y_nonneg (p : par_vandg2) (lon lat : ℝ) :
    0 ≤ (if p.vdg3 then
          (pi * (Real.sqrt (fwd_at lon * fwd_at lon + 1
            - fwd_x1 p lon lat * fwd_x1 p lon lat) - fwd_at lon), pi * fwd_x1 p lon lat)
        else
          (pi * fwd_x1 p lon lat,
            pi * Real.sqrt (1 - fwd_x1 p lon lat * (fwd_x1 p lon lat + 2 * fwd_at lon)
              + tolerance))).2 := by
  obtain ⟨v⟩ := p
  cases v
  · simp only [Bool.false_eq_true, if_false]
    exact mul_nonneg pi_pos.le (Real.sqrt_nonneg _)
  · simp only [if_true]
    exact mul_nonneg pi_pos.le (fwd_x1_III_nonneg lon lat)

/-- Variant III returns the same ordinate in both branches. -/
theorem fwd_III_y (lon lat : ℝ) :
    (fwd ⟨true⟩ lon lat).2
      = pi * (if lat < 0 then -fwd_bt lat else fwd_bt lat) / (1 + fwd_ct lat) := by
  by_cases hl : |lon| < tolerance
  · simp only [fwd, if_pos hl]
  · simp only [fwd, if_neg hl, if_true, fwd_x1_III_eq]
    split_ifs <;> ring

/-- On the valid latitude range the general branch returns non-negative unsigned values
with the signs of `lon` and `lat` restored. -/
theorem fwd_general_form (p : par_vandg2) (lon lat : ℝ) (hl : ¬ |lon| < tolerance)
    (h : |lat| ≤ Real.pi / 2) :
    ∃ X Y : ℝ, 0 ≤ X ∧ 0 ≤ Y ∧
      fwd p lon lat = (if lon < 0 then -X else X, if lat < 0 then -Y else Y) := by
  refine ⟨_, _, general_x_nonneg p lon lat h, general_y_nonneg p lon lat, ?_⟩
  simp only [fwd, if_neg hl]

/-- The degenerate-branch ordinate has the sign of `lat`. -/
theorem central_y_sign (lat : ℝ) :
    (0 ≤ lat → 0 ≤ pi * (if lat < 0 then -fwd_bt lat else fwd_bt lat) / (1 + fwd_ct lat)) ∧
    (lat < 0 → pi * (if lat < 0 then -fwd_bt lat else fwd_bt lat) / (1 + fwd_ct lat) ≤ 0) := by
  have hb := fwd_bt_nonneg lat
  have hd := one_add_ct_pos lat
  have hp := pi_pos
  constructor
  · intro h0
    rw [if_neg (not_lt.mpr h0)]
    exact div_nonneg (mul_nonneg hp.le hb) hd.le
  · intro h0
    rw [if_pos h0]
    apply div_nonpos_of_nonpos_of_nonneg _ hd.le
    nlinarith

/-- Wherever `bt = 1` and `ct = 0` (the poles), `fwd` returns `x = 0`. -/
theorem fwd_x_of_pole (p : par_vandg2) (lon lat : ℝ) (hb : fwd_bt lat = 1)
    (hc : fwd_ct lat = 0) : (fwd p lon lat).1 = 0 := by
  by_cases hl : |lon| < tolerance
  · simp only [fwd, if_pos hl]
  · obtain ⟨v⟩ := p
    cases v
    · have hx1 : fwd_x1 ⟨false⟩ lon lat = 0 := by
        simp [fwd_x1, hc]
      simp only [fwd, if_neg hl, Bool.false_eq_true, if_false, hx1, mul_zero, neg_zero,
        ite_self]
    · have hx1 : fwd_x1 ⟨true⟩ lon lat = 1 := by
        rw [fwd_x1_III_eq, hb, hc, add_zero, div_one]
      have hs : Real.sqrt (fwd_at lon * fwd_at lon + 1 - 1 * 1) = fwd_at lon := by
        rw [mul_one, add_sub_cancel_right, Real.sqrt_mul_self (fwd_at_nonneg lon)]
      simp only [fwd, if_neg hl, if_true, hx1, hs, sub_self, mul_zero, neg_zero, ite_self]

/-- Wherever `bt = 1` and `ct = 0` (the poles), variant III returns `y = ±π`. -/
theorem fwd_III_y_of_pole (lon lat : ℝ) (hb : fwd_bt lat = 1) (hc : fwd_ct lat = 0) :
    (fwd ⟨true⟩ lon lat).2 = if lat < 0 then -pi else pi := by
  rw [fwd_III_y, hb, hc, add_zero, div_one]
  split_ifs
  · rw [mul_neg, mul_one]
  · rw [mul_one]

theorem fwd_bt_neg_pole : fwd_bt (-(Real.pi / 2)) = 1 := by
  rw [fwd_bt_neg, fwd_bt_pole]

theorem fwd_ct_neg_pole : fwd_ct (-(Real.pi / 2)) = 0 := by
  rw [fwd_ct_neg, fwd_ct_pole]

/-- On `(0, π]` the absolute value in `at` can be dropped. -/
theorem fwd_at_eq_of_pos (lon : ℝ) (h0 : 0 < lon) (h1 : lon ≤ Real.pi) :
    fwd_at lon = 0.5 * (pi / lon - lon / pi) := by
  unfold fwd_at pi
  have hpi := Real.pi_pos
  have ha : lon / Real.pi ≤ 1 := (div_le_one hpi).mpr h1
  have hb : 1 ≤ Real.pi / lon := (one_le_div h0).mpr h1
  rw [abs_of_nonneg (by linarith)]

/-- On `(0, π]` the local `at` decreases as `lon` grows. -/
theorem fwd_at_antitone (lon1 lon2 : ℝ) (h0 : 0 < lon1) (h12 : lon1 ≤ lon2)
    (h2 : lon2 ≤ Real.pi) : fwd_at lon2 ≤ fwd_at lon1 := by
  have hpi := Real.pi_pos
  rw [fwd_at_eq_of_pos lon1 h0 (le_trans h12 h2),
    fwd_at_eq_of_pos lon2 (lt_of_lt_of_le h0 h12) h2]
  unfold pi
  have ha : Real.pi / lon2 ≤ Real.pi / lon1 := div_le_div_of_nonneg_left hpi.le h0 h12
  have hb : lon1 / Real.pi ≤ lon2 / Real.pi := div_le_div_of_nonneg_right h12 hpi.le
  have e : (0.5 : ℝ) = 1 / 2 := by norm_num
  rw [e]
  linarith

/-- For `k ≥ 0` the map `a ↦ sqrt(a² + k) − a` is decreasing on `a ≥ 0`. -/
theorem sqrt_sub_antitone (a1 a2 k : ℝ) (h2 : 0 ≤ a2) (h : a2 ≤ a1) (hk : 0 ≤ k) :
    Real.sqrt (a1 * a1 + k) - a1 ≤ Real.sqrt (a2 * a2 + k) - a2 := by
  have h1 : 0 ≤ a1 := le_trans h2 h
  have hr1 : 0 ≤ a1 * a1 + k := add_nonneg (mul_self_nonneg _) hk
  have hr2 : 0 ≤ a2 * a2 + k := add_nonneg (mul_self_nonneg _) hk
  have hR1 := Real.mul_self_sqrt hr1
  have hR2 := Real.mul_self_sqrt hr2
  have hR1a : a1 ≤ Real.sqrt (a1 * a1 + k) := by
    apply Real.le_sqrt_of_sq_le
    rw [sq]; linarith
  have hR2a : a2 ≤ Real.sqrt (a2 * a2 + k) := by
    apply Real.le_sqrt_of_sq_le
    rw [sq]; linarith
  by_contra hcon
  push_neg at hcon
  have hd : 0 < Real.sqrt (a1 * a1 + k) - Real.sqrt (a2 * a2 + k) - (a1 - a2) := by linarith
  have hd2 : 0 ≤ Real.sqrt (a1 * a1 + k) - Real.sqrt (a2 * a2 + k) := by linarith
  have hsum : 0 ≤ (Real.sqrt (a1 * a1 + k) - a1) + (Real.sqrt (a2 * a2 + k) - a2) := by
    linarith
  have hprod1 := mul_nonneg hd2 hsum
  have hprod2 := mul_nonneg hd.le (add_nonneg h1 h2)
  have hkey : (Real.sqrt (a1 * a1 + k) - Real.sqrt (a2 * a2 + k))
      * (Real.sqrt (a1 * a1 + k) + Real.sqrt (a2 * a2 + k)) = (a1 - a2) * (a1 + a2) := by
    ring_nf
    nlinarith
  rcases eq_or_lt_of_le (add_nonneg h1 h2) with h0 | hpos
  · have ha1 : a1 = 0 := by linarith
    have ha2 : a2 = 0 := by linarith
    rw [ha1, ha2] at hcon
    linarith
  · have := mul_pos hd hpos
    nlinarith

/-- For non-negative `lon` on the valid latitude range `fwd` returns `x ≥ 0`. -/
theorem fwd_x_nonneg_of_nonneg (p : par_vandg2) (lon lat : ℝ) (h : |lat| ≤ Real.pi / 2)
    (h0 : 0 ≤ lon) : 0 ≤ (fwd p lon lat).1 := by
  by_cases hl : |lon| < tolerance
  · simp only [fwd, if_pos hl]
    exact le_refl 0
  · obtain ⟨X, Y, hX, _, e⟩ := fwd_general_form p lon lat hl h
    rw [e]
    simp only [if_neg (not_lt.mpr h0)]
    exact hX

/-- Variant III, general branch, positive `lon`: the returned abscissa. -/
theorem fwd_III_x_of_pos (lon lat : ℝ) (hl : ¬ |lon| < tolerance) (h0 : 0 < lon) :
    (fwd ⟨true⟩ lon lat).1
      = pi * (Real.sqrt (fwd_at lon * fwd_at lon
          + (1 - fwd_bt lat / (1 + fwd_ct lat) * (fwd_bt lat / (1 + fwd_ct lat))))
          - fwd_at lon) := by
  simp only [fwd, if_neg hl, if_true, fwd_x1_III_eq, if_neg (not_lt.mpr h0.le), add_sub_assoc]

/-- C11. Concrete scenario, variant III: `fwd(lon = π/2, lat = 0)` with the variant flag
true computes `at = 0.75` and `x1 = 0` and returns `x = π·0.5` and `y = 0`. -/
theorem fwd_half_pi_equator :
    fwd_at (Real.pi / 2) = 0.75 ∧ fwd_x1 ⟨true⟩ (Real.pi / 2) 0 = 0 ∧
    fwd ⟨true⟩ (Real.pi / 2) 0 = (Real.pi * 0.5, 0) := by
  have hpi := Real.pi_pos
  have h1 : ¬ (Real.pi / 2 < 0) := by linarith
  have hs : Real.sqrt (0.75 * 0.75 + 1 - 0 * 0) = 1.25 := by
    have e : (0.75 * 0.75 + 1 - 0 * 0 : ℝ) = 1.25 ^ 2 := by norm_num
    rw [e, Real.sqrt_sq (by norm_num)]
  refine ⟨fwd_at_half_pi, fwd_x1_equator_III _, ?_⟩
  simp only [fwd, if_neg half_pi_not_lt_tolerance, if_true, fwd_x1_equator_III,
    fwd_at_half_pi, hs, if_neg h1, lt_irrefl, if_false, pi]
  norm_num

/-- C14. Normalised latitude and clamp: for every `lat` in `[−π/2, π/2]`,
`bt = |(2/π)·lat|` lies in `[0, 1]`, `ct` lies in `[0, 1]` and `bt² + ct² = 1`; for every
`lat` with `|lat| > π/2` the radicand `1 − bt²` is negative and `ct` is exactly `0`. -/
theorem fwd_bt_ct_range (lat : ℝ) :
    fwd_bt lat = |2 / Real.pi * lat| ∧
    (|lat| ≤ Real.pi / 2 →
      (0 ≤ fwd_bt lat ∧ fwd_bt lat ≤ 1) ∧ (0 ≤ fwd_ct lat ∧ fwd_ct lat ≤ 1) ∧
      fwd_bt lat * fwd_bt lat + fwd_ct lat * fwd_ct lat = 1) ∧
    (Real.pi / 2 < |lat| → 1 - fwd_bt lat * fwd_bt lat < 0 ∧ fwd_ct lat = 0) :=
  ⟨rfl,
   fun h => ⟨⟨fwd_bt_nonneg lat, fwd_bt_le_one lat h⟩,
     ⟨fwd_ct_nonneg lat, fwd_ct_le_one lat h⟩, fwd_bt_ct_sq lat h⟩,
   fun h => ⟨radicand_ct_neg lat h, fwd_ct_clamped lat h⟩⟩

theorem fwd_bt_ct_range_witness :
    (|(1 : ℝ)| ≤ Real.pi / 2 ∧
      (0 ≤ fwd_bt 1 ∧ fwd_bt 1 ≤ 1) ∧ (0 ≤ fwd_ct 1 ∧ fwd_ct 1 ≤ 1) ∧
      fwd_bt 1 * fwd_bt 1 + fwd_ct 1 * fwd_ct 1 = 1) ∧
    (Real.pi / 2 < |(2 : ℝ)| ∧ 1 - fwd_bt 2 * fwd_bt 2 < 0 ∧ fwd_ct 2 = 0) := by
  have hpi3 := Real.pi_gt_three
  have hpi4 := Real.pi_lt_four
  have h1 : |(1 : ℝ)| ≤ Real.pi / 2 := by
    rw [abs_one]; linarith
  have h2 : Real.pi / 2 < |(2 : ℝ)| := by
    rw [abs_of_pos two_pos]; linarith
  exact ⟨⟨h1, (fwd_bt_ct_range 1).2.1 h1⟩, ⟨h2, (fwd_bt_ct_range 2).2.2 h2⟩⟩

/-- C15. Variant II never has a genuinely negative radicand: for every `lat` in
`[−π/2, π/2]` and every `lon` with `|lon| ≥ 1e-10`, `0 ≤ x1` and
`1 − x1·(x1 + 2·at) ≥ 0`; consequently the returned `y` satisfies
`|y| ≥ π·sqrt(tolerance) > 0`, so `y ≠ 0`. -/
theorem fwd_II_radicand (lon lat : ℝ) (hlat : |lat| ≤ Real.pi / 2)
    (hlon : (1e-10 : ℝ) ≤ |lon|) :
    0 ≤ fwd_x1 ⟨false⟩ lon lat ∧
    0 ≤ 1 - fwd_x1 ⟨false⟩ lon lat * (fwd_x1 ⟨false⟩ lon lat + 2 * fwd_at lon) ∧
    Real.pi * Real.sqrt (1e-10 : ℝ) ≤ |(fwd ⟨false⟩ lon lat).2| ∧
    0 < Real.pi * Real.sqrt (1e-10 : ℝ) ∧
    (fwd ⟨false⟩ lon lat).2 ≠ 0 := by
  have hl : ¬ |lon| < tolerance := not_lt.mpr hlon
  have hr := radicand_II_nonneg lon lat hlat
  have hpos : 0 < pi * Real.sqrt tolerance := mul_pos pi_pos sqrt_tolerance_pos
  have hle : pi * Real.sqrt tolerance ≤ |(fwd ⟨false⟩ lon lat).2| := by
    simp only [fwd, if_neg hl, Bool.false_eq_true, if_false]
    have hs : Real.sqrt tolerance ≤ Real.sqrt (1 - fwd_x1 ⟨false⟩ lon lat
        * (fwd_x1 ⟨false⟩ lon lat + 2 * fwd_at lon) + tolerance) :=
      Real.sqrt_le_sqrt (by linarith)
    have hy := mul_le_mul_of_nonneg_left hs pi_pos.le
    have hy0 : 0 ≤ pi * Real.sqrt (1 - fwd_x1 ⟨false⟩ lon lat
        * (fwd_x1 ⟨false⟩ lon lat + 2 * fwd_at lon) + tolerance) :=
      mul_nonneg pi_pos.le (Real.sqrt_nonneg _)
    split_ifs
    · rw [abs_neg, abs_of_nonneg hy0]; exact hy
    · rw [abs_of_nonneg hy0]; exact hy
  refine ⟨fwd_x1_II_nonneg lon lat hlat, hr, hle, hpos, ?_⟩
  intro h0
  rw [h0, abs_zero] at hle
  linarith

theorem fwd_II_radicand_witness :
    (|(0 : ℝ)| ≤ Real.pi / 2 ∧ (1e-10 : ℝ) ≤ |(1 : ℝ)|) ∧
    0 ≤ fwd_x1 ⟨false⟩ 1 0 ∧
    0 ≤ 1 - fwd_x1 ⟨false⟩ 1 0 * (fwd_x1 ⟨false⟩ 1 0 + 2 * fwd_at 1) ∧
    Real.pi * Real.sqrt (1e-10 : ℝ) ≤ |(fwd ⟨false⟩ 1 0).2| ∧
    0 < Real.pi * Real.sqrt (1e-10 : ℝ) ∧
    (fwd ⟨false⟩ 1 0).2 ≠ 0 :=
  ⟨⟨abs_zero_lt_half_pi.le, by norm_num⟩,
   fwd_II_radicand 1 0 abs_zero_lt_half_pi.le (by norm_num)⟩

/-- C16. Variant III has straight parallels: with the variant flag true, for every `lat`
and every two longitudes `lon1`, `lon2` (in either branch), `fwd(lon1, lat)` and
`fwd(lon2, lat)` have the same `y`, namely `π·s/(1+ct)` with `s = bt` carrying the sign of
`lat`. -/
theorem fwd_III_parallels (lat lon1 lon2 : ℝ) :
    (fwd ⟨true⟩ lon1 lat).2 = (fwd ⟨true⟩ lon2 lat).2 ∧
    (fwd ⟨true⟩ lon1 lat).2
      = Real.pi * (if lat < 0 then -fwd_bt lat else fwd_bt lat) / (1 + fwd_ct lat) :=
  ⟨(fwd_III_y lon1 lat).trans (fwd_III_y lon2 lat).symm, fwd_III_y lon1 lat⟩

/-- C17. Quadrant preservation: for every `lat` in `[−π/2, π/2]`, every `lon` and both
variants, the result `(x, y)` of `fwd` satisfies `x ≥ 0` when `lon ≥ 0`, `x ≤ 0` when
`lon ≤ 0`, `y ≥ 0` when `lat ≥ 0` and `y ≤ 0` when `lat < 0`. -/
theorem fwd_quadrant (p : par_vandg2) (lon lat : ℝ) (h : |lat| ≤ Real.pi / 2) :
    (0 ≤ lon → 0 ≤ (fwd p lon lat).1) ∧ (lon ≤ 0 → (fwd p lon lat).1 ≤ 0) ∧
    (0 ≤ lat → 0 ≤ (fwd p lon lat).2) ∧ (lat < 0 → (fwd p lon lat).2 ≤ 0) := by
  by_cases hl : |lon| < tolerance
  · simp only [fwd, if_pos hl]
    exact ⟨fun _ => le_refl 0, fun _ => le_refl 0, (central_y_sign lat).1,
      (central_y_sign lat).2⟩
  · obtain ⟨X, Y, hX, hY, e⟩ := fwd_general_form p lon lat hl h
    have hne := lon_ne_zero_of_general lon hl
    rw [e]
    refine ⟨?_, ?_, ?_, ?_⟩
    · intro h0
      simp only [if_neg (not_lt.mpr h0)]
      exact hX
    · intro h0
      simp only [if_pos (lt_of_le_of_ne h0 hne)]
      linarith
    · intro h0
      simp only [if_neg (not_lt.mpr h0)]
      exact hY
    · intro h0
      simp only [if_pos h0]
      linarith

theorem fwd_quadrant_witness :
    |(1 : ℝ)| ≤ Real.pi / 2 ∧
    (0 ≤ (1 : ℝ) → 0 ≤ (fwd ⟨false⟩ 1 1).1) ∧ ((1 : ℝ) ≤ 0 → (fwd ⟨false⟩ 1 1).1 ≤ 0) ∧
    (0 ≤ (1 : ℝ) → 0 ≤ (fwd ⟨false⟩ 1 1).2) ∧ ((1 : ℝ) < 0 → (fwd ⟨false⟩ 1 1).2 ≤ 0) := by
  have h1 : |(1 : ℝ)| ≤ Real.pi / 2 := by
    rw [abs_one]; linarith [Real.pi_gt_three]
  exact ⟨h1, fwd_quadrant ⟨false⟩ 1 1 h1⟩

/-- C18. Meridians meet at the poles: for `lat = +π/2` or `−π/2`, every `lon` and both
variants, `fwd` returns `x = 0`; in variant III the full image is the single point
`(0, ±π)` for every `lon`. -/
theorem fwd_pole (p : par_vandg2) (lon : ℝ) :
    (fwd p lon (Real.pi / 2)).1 = 0 ∧ (fwd p lon (-(Real.pi / 2))).1 = 0 ∧
    fwd ⟨true⟩ lon (Real.pi / 2) = (0, Real.pi) ∧
    fwd ⟨true⟩ lon (-(Real.pi / 2)) = (0, -Real.pi) := by
  have hpi := Real.pi_pos
  have h1 : ¬ (Real.pi / 2 < 0) := by linarith
  have h2 : -(Real.pi / 2) < 0 := by linarith
  refine ⟨fwd_x_of_pole p lon _ fwd_bt_pole fwd_ct_pole,
    fwd_x_of_pole p lon _ fwd_bt_neg_pole fwd_ct_neg_pole, ?_, ?_⟩
  · apply Prod.ext
    · exact fwd_x_of_pole ⟨true⟩ lon _ fwd_bt_pole fwd_ct_pole
    · rw [fwd_III_y_of_pole lon _ fwd_bt_pole fwd_ct_pole, if_neg h1]
      rfl
  · apply Prod.ext
    · exact fwd_x_of_pole ⟨true⟩ lon _ fwd_bt_neg_pole fwd_ct_neg_pole
    · rw [fwd_III_y_of_pole lon _ fwd_bt_neg_pole fwd_ct_neg_pole, if_pos h2]
      rfl

/-- C19. Monotone in longitude (variant III): with the variant flag true, for every `lat`
in `[−π/2, π/2]` and every `lon1`, `lon2` with `0 ≤ lon1 ≤ lon2 ≤ π`, the `x` returned by
`fwd(lon1, lat)` is `≤` the `x` returned by `fwd(lon2, lat)`. -/
theorem fwd_III_mono (lat lon1 lon2 : ℝ) (hlat : |lat| ≤ Real.pi / 2) (h0 : 0 ≤ lon1)
    (h12 : lon1 ≤ lon2) (h2 : lon2 ≤ Real.pi) :
    (fwd ⟨true⟩ lon1 lat).1 ≤ (fwd ⟨true⟩ lon2 lat).1 := by
  by_cases hl1 : |lon1| < tolerance
  · have hx2 := fwd_x_nonneg_of_nonneg ⟨true⟩ lon2 lat hlat (le_trans h0 h12)
    simp only [fwd, if_pos hl1]
    exact hx2
  · have hne := lon_ne_zero_of_general lon1 hl1
    have hp1 : 0 < lon1 := lt_of_le_of_ne h0 (Ne.symm hne)
    have hp2 : 0 < lon2 := lt_of_lt_of_le hp1 h12
    have hl2 : ¬ |lon2| < tolerance := by
      rw [abs_of_pos hp2]
      rw [abs_of_pos hp1] at hl1
      intro hlt
      exact hl1 (lt_of_le_of_lt h12 hlt)
    rw [fwd_III_x_of_pos lon1 lat hl1 hp1, fwd_III_x_of_pos lon2 lat hl2 hp2]
    apply mul_le_mul_of_nonneg_left _ pi_pos.le
    apply sqrt_sub_antitone _ _ _ (fwd_at_nonneg lon2) (fwd_at_antitone lon1 lon2 hp1 h12 h2)
    have hx0 := fwd_x1_III_nonneg lon1 lat
    have hx1 := fwd_x1_III_le_one lon1 lat hlat
    rw [fwd_x1_III_eq] at hx0 hx1
    nlinarith

theorem fwd_III_mono_witness :
    (|(0 : ℝ)| ≤ Real.pi / 2 ∧ (0 : ℝ) ≤ 1 ∧ (1 : ℝ) ≤ 2 ∧ (2 : ℝ) ≤ Real.pi) ∧
    (fwd ⟨true⟩ 1 0).1 ≤ (fwd ⟨true⟩ 2 0).1 := by
  have h2 : (2 : ℝ) ≤ Real.pi := by linarith [Real.pi_gt_three]
  exact ⟨⟨abs_zero_lt_half_pi.le, zero_le_one, one_le_two, h2⟩,
    fwd_III_mono 0 1 2 abs_zero_lt_half_pi.le zero_le_one one_le_two h2⟩

/-- C12. Variant configuration: `setup_vandg3` sets the variant flag `vdg3` to true and
forces the parameter `es` to `0`, while `setup_vandg2` sets `vdg3` to false and leaves every
field of the parameters (including `es`) unchanged; `vandg2_init` registers the two
constructors under the names `vandg2` and `vandg3`, and the projector built for `vandg2`
runs `fwd` with the flag false (variant II), the one built for `vandg3` with the flag true
(variant III). -/
theorem setup_variants {α : Type} (par : Parameters α) (uninit : par_vandg2)
    (factory : base_factory α) :
    ((setup_vandg3 par uninit).2.vdg3 = true ∧ (setup_vandg3 par uninit).1.es = 0 ∧
      (setup_vandg3 par uninit).1.others = par.others) ∧
    ((setup_vandg2 par uninit).2.vdg3 = false ∧ (setup_vandg2 par uninit).1 = par) ∧
    vandg2_init factory = factory ++ [("vandg2", vandg2_entry), ("vandg3", vandg3_entry)] ∧
    ((vandg2_entry par uninit).m_proj_parm.vdg3 = false ∧
      (vandg2_entry par uninit).m_par = par ∧
      ∀ lon lat, (vandg2_entry par uninit).fwd lon lat = fwd ⟨false⟩ lon lat) ∧
    ((vandg3_entry par uninit).m_proj_parm.vdg3 = true ∧
      (vandg3_entry par uninit).m_par.es = 0 ∧
      ∀ lon lat, (vandg3_entry par uninit).fwd lon lat = fwd ⟨true⟩ lon lat) := by
  refine ⟨⟨rfl, rfl, rfl⟩, ⟨rfl, rfl⟩, ?_, ⟨rfl, rfl, fun _ _ => rfl⟩,
    ⟨rfl, rfl, fun _ _ => rfl⟩⟩
  simp [vandg2_init, add_to_factory]

/-! ## The general branch near the central meridian -/

theorem fwd_general_III (lon lat : ℝ) :
    fwd_general ⟨true⟩ lon lat =
      (if lon < 0 then
          -(pi * (Real.sqrt (fwd_at lon * fwd_at lon + 1
            - fwd_x1 ⟨true⟩ lon lat * fwd_x1 ⟨true⟩ lon lat) - fwd_at lon))
        else pi * (Real.sqrt (fwd_at lon * fwd_at lon + 1
            - fwd_x1 ⟨true⟩ lon lat * fwd_x1 ⟨true⟩ lon lat) - fwd_at lon),
       if lat < 0 then -(pi * fwd_x1 ⟨true⟩ lon lat) else pi * fwd_x1 ⟨true⟩ lon lat) := by
  simp only [fwd_general, fwd_x1, fwd_at, if_true]

theorem fwd_general_II (lon lat : ℝ) :
    fwd_general ⟨false⟩ lon lat =
      (if lon < 0 then -(pi * fwd_x1 ⟨false⟩ lon lat) else pi * fwd_x1 ⟨false⟩ lon lat,
       if lat < 0 then
          -(pi * Real.sqrt (1 - fwd_x1 ⟨false⟩ lon lat
            * (fwd_x1 ⟨false⟩ lon lat + 2 * fwd_at lon) + tolerance))
        else pi * Real.sqrt (1 - fwd_x1 ⟨false⟩ lon lat
            * (fwd_x1 ⟨false⟩ lon lat + 2 * fwd_at lon) + tolerance)) := by
  simp only [fwd_general, fwd_x1, fwd_at, Bool.false_eq_true, if_false]

/-- Near the central meridian `at` is at least `1/|lon|`. -/
theorem one_le_at_mul_abs (lon : ℝ) (h0 : lon ≠ 0) (h1 : |lon| ≤ 1) :
    1 ≤ fwd_at lon * |lon| := by
  have hpi3 := Real.pi_gt_three
  have hpi : (0 : ℝ) < Real.pi := Real.pi_pos
  have habs : 0 < |lon| := abs_pos.mpr h0
  have htri := abs_sub_abs_le_abs_sub (pi / lon) (lon / pi)
  have e1 : |pi / lon| * |lon| = Real.pi := by
    rw [← abs_mul, div_mul_cancel₀ _ h0]
    exact abs_of_pos hpi
  have e2 : |lon / pi| * |lon| ≤ 1 / 3 := by
    have : |lon / pi| = |lon| / Real.pi := by
      rw [abs_div]
      congr 1
      exact abs_of_pos hpi
    rw [this, div_mul_eq_mul_div, div_le_iff₀ hpi]
    nlinarith
  have h2 := mul_le_mul_of_nonneg_right htri habs.le
  unfold fwd_at
  have e : (0.5 : ℝ) = 1 / 2 := by norm_num
  rw [e]
  nlinarith

theorem fwd_at_le_sqrt (a : ℝ) : a ≤ Real.sqrt (1 + a * a) := by
  apply Real.le_sqrt_of_sq_le
  rw [sq]
  linarith

/-- Variant III, general branch: the unsigned abscissa is at most `π·|lon|` near the central
meridian. -/
theorem general_III_x_le (lon lat : ℝ) (h0 : lon ≠ 0) (h1 : |lon| ≤ 1)
    (h : |lat| ≤ Real.pi / 2) :
    pi * (Real.sqrt (fwd_at lon * fwd_at lon + 1
        - fwd_x1 ⟨true⟩ lon lat * fwd_x1 ⟨true⟩ lon lat) - fwd_at lon) ≤ pi * |lon| := by
  apply mul_le_mul_of_nonneg_left _ pi_pos.le
  have ha := fwd_at_nonneg lon
  have hL := one_le_at_mul_abs lon h0 h1
  have habs : 0 ≤ |lon| := abs_nonneg _
  have hR := at_le_sqrt_III lon lat h
  have hRR := Real.mul_self_sqrt (radicand_III_nonneg lon lat h)
  have hx0 := fwd_x1_III_nonneg lon lat
  have hx1 := fwd_x1_III_le_one lon lat h
  set R := Real.sqrt (fwd_at lon * fwd_at lon + 1
        - fwd_x1 ⟨true⟩ lon lat * fwd_x1 ⟨true⟩ lon lat) with hRdef
  have hd : 0 ≤ R - fwd_at lon := sub_nonneg.mpr hR
  have s1 : (R - fwd_at lon) * 1 ≤ (R - fwd_at lon) * (fwd_at lon * |lon|) :=
    mul_le_mul_of_nonneg_left hL hd
  have s2 : (R - fwd_at lon) * fwd_at lon ≤ (R - fwd_at lon) * (R + fwd_at lon) :=
    mul_le_mul_of_nonneg_left (by linarith) hd
  have s3 := mul_le_mul_of_nonneg_right s2 habs
  have s4 : (R - fwd_at lon) * (R + fwd_at lon) ≤ 1 := by nlinarith
  have s5 := mul_le_mul_of_nonneg_right s4 habs
  nlinarith

/-- Variant II, general branch: the unsigned abscissa is at most `π·|lon|` near the central
meridian. -/
theorem general_II_x_le (lon lat : ℝ) (h0 : lon ≠ 0) (h1 : |lon| ≤ 1)
    (h : |lat| ≤ Real.pi / 2) :
    pi * fwd_x1 ⟨false⟩ lon lat ≤ pi * |lon| := by
  apply mul_le_mul_of_nonneg_left _ pi_pos.le
  have ha := fwd_at_nonneg lon
  have hL := one_le_at_mul_abs lon h0 h1
  have habs : 0 ≤ |lon| := abs_nonneg _
  have hx := fwd_x1_II_nonneg lon lat h
  have hc0 := fwd_ct_nonneg lat
  have hc1 := fwd_ct_le_one lat h
  have hS := fwd_at_le_sqrt (fwd_at lon)
  have hW := denom_II_pos lon lat
  have hmul : fwd_x1 ⟨false⟩ lon lat
      * (Real.sqrt (1 + fwd_at lon * fwd_at lon) + fwd_at lon * fwd_ct lat) = fwd_ct lat := by
    rw [fwd_x1_II_eq lon lat h, div_mul_cancel₀ _ hW.ne.symm]
  have hac := mul_nonneg ha hc0
  have s1 : fwd_x1 ⟨false⟩ lon lat * 1 ≤ fwd_x1 ⟨false⟩ lon lat * (fwd_at lon * |lon|) :=
    mul_le_mul_of_nonneg_left hL hx
  have s2 : fwd_x1 ⟨false⟩ lon lat * fwd_at lon ≤ fwd_x1 ⟨false⟩ lon lat
      * (Real.sqrt (1 + fwd_at lon * fwd_at lon) + fwd_at lon * fwd_ct lat) :=
    mul_le_mul_of_nonneg_left (by linarith) hx
  have s3 := mul_le_mul_of_nonneg_right s2 habs
  rw [hmul] at s3
  have s4 := mul_le_mul_of_nonneg_right hc1 habs
  nlinarith

theorem eventually_near_meridian :
    ∀ᶠ lon in nhdsWithin (0 : ℝ) {0}ᶜ, lon ≠ 0 ∧ |lon| ≤ 1 := by
  have h1 : ∀ᶠ lon in nhdsWithin (0 : ℝ) {0}ᶜ, lon ∈ ({0}ᶜ : Set ℝ) := self_mem_nhdsWithin
  have h2 : ∀ᶠ lon in nhdsWithin (0 : ℝ) {0}ᶜ, lon ∈ Metric.closedBall (0 : ℝ) 1 :=
    mem_nhdsWithin_of_mem_nhds (Metric.closedBall_mem_nhds (0 : ℝ) one_pos)
  filter_upwards [h1, h2] with lon hne hball
  refine ⟨hne, ?_⟩
  rw [Metric.mem_closedBall, Real.dist_eq, sub_zero] at hball
  exact hball

theorem tendsto_pi_mul_abs :
    Filter.Tendsto (fun lon : ℝ => pi * |lon|) (nhdsWithin (0 : ℝ) {0}ᶜ) (nhds 0) := by
  have h : Filter.Tendsto (fun lon : ℝ => pi * |lon|) (nhds 0) (nhds (pi * |(0 : ℝ)|)) :=
    (continuous_const.mul continuous_abs).tendsto 0
  rw [abs_zero, mul_zero] at h
  exact tendsto_nhdsWithin_of_tendsto_nhds h

theorem abs_neg_ite (c : Prop) [Decidable c] (a : ℝ) (ha : 0 ≤ a) :
    |if c then -a else a| = a := by
  split_ifs
  · rw [abs_neg, abs_of_nonneg ha]
  · exact abs_of_nonneg ha

/-- Variant III: the abscissa of the general branch tends to `0` as `lon → 0`. -/
theorem tendsto_general_III_x (lat : ℝ) (h : |lat| ≤ Real.pi / 2) :
    Filter.Tendsto (fun lon => (fwd_general ⟨true⟩ lon lat).1)
      (nhdsWithin (0 : ℝ) {0}ᶜ) (nhds 0) := by
  apply squeeze_zero_norm' _ tendsto_pi_mul_abs
  filter_upwards [eventually_near_meridian] with lon hlon
  rw [fwd_general_III, Real.norm_eq_abs,
    abs_neg_ite _ _ (mul_nonneg pi_pos.le (sub_nonneg.mpr (at_le_sqrt_III lon lat h)))]
  exact general_III_x_le lon lat hlon.1 hlon.2 h

/-- Variant II: the abscissa of the general branch tends to `0` as `lon → 0`. -/
theorem tendsto_general_II_x (lat : ℝ) (h : |lat| ≤ Real.pi / 2) :
    Filter.Tendsto (fun lon => (fwd_general ⟨false⟩ lon lat).1)
      (nhdsWithin (0 : ℝ) {0}ᶜ) (nhds 0) := by
  apply squeeze_zero_norm' _ tendsto_pi_mul_abs
  filter_upwards [eventually_near_meridian] with lon hlon
  rw [fwd_general_II, Real.norm_eq_abs,
    abs_neg_ite _ _ (mul_nonneg pi_pos.le (fwd_x1_II_nonneg lon lat h))]
  exact general_II_x_le lon lat hlon.1 hlon.2 h

/-- Variant III: the ordinate of the general branch is the degenerate-branch ordinate. -/
theorem fwd_general_III_y (lon lat : ℝ) :
    (fwd_general ⟨true⟩ lon lat).2
      = pi * (if lat < 0 then -fwd_bt lat else fwd_bt lat) / (1 + fwd_ct lat) := by
  rw [fwd_general_III, fwd_x1_III_eq]
  split_ifs <;> ring

/-- Variant II on the equator: the ordinate of the general branch is `π·sqrt(tolerance)`
for every `lon`. -/
theorem fwd_general_II_y_equator (lon : ℝ) :
    (fwd_general ⟨false⟩ lon 0).2 = pi * Real.sqrt tolerance := by
  rw [fwd_general_II]
  simp only [lt_irrefl, if_false]
  rw [radicand_equator_II]

/-- Variant II: the radicand without the tolerance, written with the ratio
`at / sqrt(1 + at²)`. -/
theorem radicand_II_ratio (a b c S : ℝ) (ha : 0 ≤ a) (hc : 0 ≤ c) (hS0 : 0 < S)
    (hS : S * S = 1 + a * a) :
    (1 + a * a) * (b * b) / ((S + a * c) * (S + a * c))
      = b * b / ((1 + c * (a / S)) * (1 + c * (a / S))) := by
  have hW : S + a * c ≠ 0 := by
    have := mul_nonneg ha hc
    linarith
  have hS1 : S ≠ 0 := hS0.ne.symm
  have e : 1 + c * (a / S) = (S + a * c) / S := by
    field_simp
    ring
  rw [e, ← hS]
  field_simp
  ring

theorem radicand_II_eq_ratio (lon lat : ℝ) (h : |lat| ≤ Real.pi / 2) :
    1 - fwd_x1 ⟨false⟩ lon lat * (fwd_x1 ⟨false⟩ lon lat + 2 * fwd_at lon)
      = fwd_bt lat * fwd_bt lat
        / ((1 + fwd_ct lat * (fwd_at lon / Real.sqrt (1 + fwd_at lon * fwd_at lon)))
          * (1 + fwd_ct lat * (fwd_at lon / Real.sqrt (1 + fwd_at lon * fwd_at lon)))) := by
  rw [fwd_x1_II_eq lon lat h,
    radicand_II_closed (fwd_at lon) (fwd_bt lat) (fwd_ct lat) _ (fwd_at_nonneg lon)
      (fwd_ct_nonneg lat) (sqrt_one_add_sq_pos _) (fwd_bt_ct_sq lat h)
      (sqrt_one_add_sq_mul_self _),
    radicand_II_ratio (fwd_at lon) (fwd_bt lat) (fwd_ct lat) _ (fwd_at_nonneg lon)
      (fwd_ct_nonneg lat) (sqrt_one_add_sq_pos _) (sqrt_one_add_sq_mul_self _)]

/-- Near the central meridian the ratio `at / sqrt(1 + at²)` lies in `[1 − |lon|, 1]`. -/
theorem ratio_bounds (lon : ℝ) (h0 : lon ≠ 0) (h1 : |lon| ≤ 1) :
    1 - |lon| ≤ fwd_at lon / Real.sqrt (1 + fwd_at lon * fwd_at lon) ∧
    fwd_at lon / Real.sqrt (1 + fwd_at lon * fwd_at lon) ≤ 1 := by
  have ha := fwd_at_nonneg lon
  have hL := one_le_at_mul_abs lon h0 h1
  have habs : 0 ≤ |lon| := abs_nonneg _
  have hS0 := sqrt_one_add_sq_pos (fwd_at lon)
  have hSS := sqrt_one_add_sq_mul_self (fwd_at lon)
  have hSa := fwd_at_le_sqrt (fwd_at lon)
  set S := Real.sqrt (1 + fwd_at lon * fwd_at lon) with hSdef
  have hS1 : 1 ≤ S := by nlinarith
  have hd : 0 ≤ S - fwd_at lon := sub_nonneg.mpr hSa
  have s1 : (S - fwd_at lon) * 1 ≤ (S - fwd_at lon) * (fwd_at lon * |lon|) :=
    mul_le_mul_of_nonneg_left hL hd
  have s2 : (S - fwd_at lon) * fwd_at lon ≤ (S - fwd_at lon) * (S + fwd_at lon) :=
    mul_le_mul_of_nonneg_left (by linarith) hd
  have s3 := mul_le_mul_of_nonneg_right s2 habs
  have s4 : (S - fwd_at lon) * (S + fwd_at lon) = 1 := by nlinarith
  have s5 : S - fwd_at lon ≤ |lon| := by nlinarith
  have s6 : |lon| * 1 ≤ |lon| * S := mul_le_mul_of_nonneg_left hS1 habs
  constructor
  · rw [le_div_iff₀ hS0]
    nlinarith
  · rw [div_le_one hS0]
    exact hSa

theorem tendsto_ratio :
    Filter.Tendsto (fun lon => fwd_at lon / Real.sqrt (1 + fwd_at lon * fwd_at lon))
      (nhdsWithin (0 : ℝ) {0}ᶜ) (nhds 1) := by
  have hlow : Filter.Tendsto (fun lon : ℝ => 1 - |lon|) (nhdsWithin (0 : ℝ) {0}ᶜ) (nhds 1) := by
    have h : Filter.Tendsto (fun lon : ℝ => 1 - |lon|) (nhds 0) (nhds (1 - |(0 : ℝ)|)) :=
      (continuous_const.sub continuous_abs).tendsto 0
    rw [abs_zero, sub_zero] at h
    exact tendsto_nhdsWithin_of_tendsto_nhds h
  apply tendsto_of_tendsto_of_tendsto_of_le_of_le' hlow tendsto_const_nhds
  · filter_upwards [eventually_near_meridian] with lon hlon
    exact (ratio_bounds lon hlon.1 hlon.2).1
  · filter_upwards [eventually_near_meridian] with lon hlon
    exact (ratio_bounds lon hlon.1 hlon.2).2

/-- Variant II: the unsigned ordinate of the general branch tends to
`π·sqrt((bt/(1+ct))² + tolerance)` as `lon → 0`. -/
theorem tendsto_general_II_y_unsigned (lat : ℝ) (h : |lat| ≤ Real.pi / 2) :
    Filter.Tendsto
      (fun lon => pi * Real.sqrt (1 - fwd_x1 ⟨false⟩ lon lat
          * (fwd_x1 ⟨false⟩ lon lat + 2 * fwd_at lon) + tolerance))
      (nhdsWithin (0 : ℝ) {0}ᶜ)
      (nhds (pi * Real.sqrt ((fwd_bt lat / (1 + fwd_ct lat)) ^ 2 + tolerance))) := by
  have hc := fwd_ct_nonneg lat
  have hden : (1 + fwd_ct lat * 1) * (1 + fwd_ct lat * 1) ≠ 0 := by
    have : 0 < 1 + fwd_ct lat * 1 := by linarith
    exact (mul_pos this this).ne.symm
  have hF : ContinuousAt (fun t : ℝ => pi * Real.sqrt (fwd_bt lat * fwd_bt lat
      / ((1 + fwd_ct lat * t) * (1 + fwd_ct lat * t)) + tolerance)) 1 := by
    have hd : ContinuousAt (fun t : ℝ => (1 + fwd_ct lat * t) * (1 + fwd_ct lat * t)) 1 :=
      Continuous.continuousAt (by continuity)
    have hq : ContinuousAt (fun t : ℝ => fwd_bt lat * fwd_bt lat
        / ((1 + fwd_ct lat * t) * (1 + fwd_ct lat * t))) 1 :=
      ContinuousAt.div continuousAt_const hd hden
    exact ContinuousAt.mul continuousAt_const (ContinuousAt.sqrt (hq.add continuousAt_const))
  have hcomp := hF.tendsto.comp tendsto_ratio
  have e1 : pi * Real.sqrt (fwd_bt lat * fwd_bt lat
      / ((1 + fwd_ct lat * 1) * (1 + fwd_ct lat * 1)) + tolerance)
      = pi * Real.sqrt ((fwd_bt lat / (1 + fwd_ct lat)) ^ 2 + tolerance) := by
    rw [mul_one, div_pow, sq, sq]
  rw [e1] at hcomp
  refine hcomp.congr ?_
  intro lon
  simp only [Function.comp]
  rw [radicand_II_eq_ratio lon lat h]

/-- Variant II: the ordinate of the general branch tends to
`±π·sqrt((bt/(1+ct))² + tolerance)` as `lon → 0`. -/
theorem tendsto_general_II_y (lat : ℝ) (h : |lat| ≤ Real.pi / 2) :
    Filter.Tendsto (fun lon => (fwd_general ⟨false⟩ lon lat).2)
      (nhdsWithin (0 : ℝ) {0}ᶜ)
      (nhds (if lat < 0
        then -(pi * Real.sqrt ((fwd_bt lat / (1 + fwd_ct lat)) ^ 2 + tolerance))
        else pi * Real.sqrt ((fwd_bt lat / (1 + fwd_ct lat)) ^ 2 + tolerance))) := by
  by_cases hlat : lat < 0
  · simp only [fwd_general_II, if_pos hlat]
    exact (tendsto_general_II_y_unsigned lat h).neg
  · simp only [fwd_general_II, if_neg hlat]
    exact tendsto_general_II_y_unsigned lat h

/-- C13 (claim as stated fails). In variant II on the equator (`lat = 0`) the general-branch
values do not converge, as `lon → 0` with `lon ≠ 0`, to the degenerate-branch values
`x = 0`, `y = π·s/(1+ct)`. -/
theorem fwd_general_limit_counterexample :
    |(0 : ℝ)| ≤ Real.pi / 2 ∧
    ¬ Filter.Tendsto (fun lon => fwd_general ⟨false⟩ lon 0) (nhdsWithin (0 : ℝ) {0}ᶜ)
      (nhds ((0 : ℝ),
        Real.pi * (if (0 : ℝ) < 0 then -fwd_bt 0 else fwd_bt 0) / (1 + fwd_ct 0))) := by
  refine ⟨abs_zero_lt_half_pi.le, ?_⟩
  intro hlim
  have h2 : Filter.Tendsto (fun lon => (fwd_general ⟨false⟩ lon 0).2)
      (nhdsWithin (0 : ℝ) {0}ᶜ)
      (nhds (Real.pi * (if (0 : ℝ) < 0 then -fwd_bt 0 else fwd_bt 0) / (1 + fwd_ct 0))) :=
    (continuous_snd.tendsto _).comp hlim
  have hconst : Filter.Tendsto (fun lon => (fwd_general ⟨false⟩ lon 0).2)
      (nhdsWithin (0 : ℝ) {0}ᶜ) (nhds (pi * Real.sqrt tolerance)) :=
    tendsto_const_nhds.congr (fun lon => (fwd_general_II_y_equator lon).symm)
  have heq := tendsto_nhds_unique h2 hconst
  rw [if_neg (lt_irrefl _), fwd_bt_zero, mul_zero, zero_div] at heq
  have hpos := mul_pos pi_pos sqrt_tolerance_pos
  linarith

/-- C13 (amended). For every `lat` in `[−π/2, π/2]`, as `lon → 0` with `lon ≠ 0` the
general-branch values of `fwd` converge: in variant III to the degenerate-branch values
`x = 0`, `y = π·s/(1+ct)` (`s = bt` with the sign of `lat`); in variant II to `x = 0` and
`y = ±π·sqrt((bt/(1+ct))² + tolerance)` with the sign chosen by `lat < 0`. -/
theorem fwd_general_limit (lat : ℝ) (h : |lat| ≤ Real.pi / 2) :
    Filter.Tendsto (fun lon => fwd_general ⟨true⟩ lon lat) (nhdsWithin (0 : ℝ) {0}ᶜ)
      (nhds ((0 : ℝ),
        Real.pi * (if lat < 0 then -fwd_bt lat else fwd_bt lat) / (1 + fwd_ct lat))) ∧
    Filter.Tendsto (fun lon => fwd_general ⟨false⟩ lon lat) (nhdsWithin (0 : ℝ) {0}ᶜ)
      (nhds ((0 : ℝ),
        if lat < 0
        then -(Real.pi * Real.sqrt ((fwd_bt lat / (1 + fwd_ct lat)) ^ 2 + (1e-10 : ℝ)))
        else Real.pi * Real.sqrt ((fwd_bt lat / (1 + fwd_ct lat)) ^ 2 + (1e-10 : ℝ)))) := by
  constructor
  · have hy : Filter.Tendsto (fun lon => (fwd_general ⟨true⟩ lon lat).2)
        (nhdsWithin (0 : ℝ) {0}ᶜ)
        (nhds (pi * (if lat < 0 then -fwd_bt lat else fwd_bt lat) / (1 + fwd_ct lat))) :=
      tendsto_const_nhds.congr (fun lon => (fwd_general_III_y lon lat).symm)
    exact (tendsto_general_III_x lat h).prod_mk_nhds hy
  · exact (tendsto_general_II_x lat h).prod_mk_nhds (tendsto_general_II_y lat h)

theorem fwd_general_limit_witness :
    |(0 : ℝ)| ≤ Real.pi / 2 ∧
    (Filter.Tendsto (fun lon => fwd_general ⟨true⟩ lon 0) (nhdsWithin (0 : ℝ) {0}ᶜ)
      (nhds ((0 : ℝ),
        Real.pi * (if (0 : ℝ) < 0 then -fwd_bt 0 else fwd_bt 0) / (1 + fwd_ct 0))) ∧
    Filter.Tendsto (fun lon => fwd_general ⟨false⟩ lon 0) (nhdsWithin (0 : ℝ) {0}ᶜ)
      (nhds ((0 : ℝ),
        if (0 : ℝ) < 0
        then -(Real.pi * Real.sqrt ((fwd_bt 0 / (1 + fwd_ct 0)) ^ 2 + (1e-10 : ℝ)))
        else Real.pi * Real.sqrt ((fwd_bt 0 / (1 + fwd_ct 0)) ^ 2 + (1e-10 : ℝ))))) :=
  ⟨abs_zero_lt_half_pi.le, fwd_general_limit 0 abs_zero_lt_half_pi.le⟩

end vandg2
